import Mathlib

/-!
# Verification of the weighted-median fee-rate estimator

Shallow embedding of `src/cost_estimates/fee_medians.rs` (the
`WeightedMedianFeeRateEstimator`).  Floating-point (`f64`) values are
modelled exactly by the four-valued type `F` below: a finite rational,
`+inf`, `-inf`, or NaN.  Arithmetic on finite values is exact rational
arithmetic (IEEE rounding is abstracted away; the claims under study are
about branch structure, ordering and interpolation, not about rounding
error).  Signed zero is abstracted to a single zero.  Machine integers
(`u64`, `u32`) are modelled as `ℕ`; none of the claims concern integer
wraparound, and the SQLite `measure_key` arithmetic is done in `ℤ`
exactly as SQLite evaluates it (64-bit signed, no underflow in reach).
-/

/-- Model of an IEEE `f64` as it is used in `fee_medians.rs`: a finite
rational number, one of the two infinities, or NaN.  Rounding of finite
results is abstracted (arithmetic is exact); signed zero is abstracted. -/
inductive F : Type where
  | fin : ℚ → F
  | pinf : F
  | ninf : F
  | nan : F
deriving DecidableEq, Repr

namespace F

/-- IEEE negation. -/
def neg : F → F
  | fin q => fin (-q)
  | pinf => ninf
  | ninf => pinf
  | nan => nan

/-- IEEE addition (exact on finite values). -/
def add : F → F → F
  | nan, _ => nan
  | _, nan => nan
  | fin a, fin b => fin (a + b)
  | pinf, ninf => nan
  | ninf, pinf => nan
  | pinf, _ => pinf
  | _, pinf => pinf
  | ninf, _ => ninf
  | _, ninf => ninf

/-- IEEE subtraction. -/
def sub (a b : F) : F := add a (neg b)

/-- IEEE multiplication (exact on finite values). -/
def mul : F → F → F
  | nan, _ => nan
  | _, nan => nan
  | fin a, fin b => fin (a * b)
  | pinf, fin b => if b = 0 then nan else if 0 < b then pinf else ninf
  | fin a, pinf => if a = 0 then nan else if 0 < a then pinf else ninf
  | ninf, fin b => if b = 0 then nan else if 0 < b then ninf else pinf
  | fin a, ninf => if a = 0 then nan else if 0 < a then ninf else pinf
  | pinf, pinf => pinf
  | pinf, ninf => ninf
  | ninf, pinf => ninf
  | ninf, ninf => pinf

/-- IEEE division (exact on finite values; `x/0` is NaN when `x = 0`
and a signed infinity otherwise; sign of zero abstracted). -/
def div : F → F → F
  | nan, _ => nan
  | _, nan => nan
  | fin a, fin b =>
      if b = 0 then (if a = 0 then nan else if 0 < a then pinf else ninf)
      else fin (a / b)
  | fin _, pinf => fin 0
  | fin _, ninf => fin 0
  | pinf, fin b => if 0 ≤ b then pinf else ninf
  | ninf, fin b => if 0 ≤ b then ninf else pinf
  | pinf, pinf => nan
  | pinf, ninf => nan
  | ninf, pinf => nan
  | ninf, ninf => nan

/-- IEEE `<` : any comparison involving NaN is `false`. -/
def lt : F → F → Bool
  | nan, _ => false
  | _, nan => false
  | fin a, fin b => decide (a < b)
  | ninf, ninf => false
  | ninf, _ => true
  | _, ninf => false
  | pinf, pinf => false
  | _, pinf => true
  | pinf, _ => false

/-- IEEE `<=` : any comparison involving NaN is `false`. -/
def le : F → F → Bool
  | nan, _ => false
  | _, nan => false
  | fin a, fin b => decide (a ≤ b)
  | ninf, _ => true
  | _, ninf => false
  | _, pinf => true
  | pinf, _ => false

/-- Model of Rust's `f64::partial_cmp`: `none` iff either side is NaN. -/
def pcmp : F → F → Option Ordering
  | nan, _ => none
  | _, nan => none
  | fin a, fin b => some (compare a b)
  | ninf, ninf => some .eq
  | ninf, _ => some .lt
  | _, ninf => some .gt
  | pinf, pinf => some .eq
  | _, pinf => some .lt
  | pinf, _ => some .gt

/-- Model of `a.partial_cmp(b).unwrap_or(Ordering::Equal)` — the
comparator used throughout the estimator ("treat incomparable floats as
equal"). -/
def cmpE (a b : F) : Ordering := (pcmp a b).getD .eq

/-- The "less-or-equal" relation induced by `cmpE`, i.e. the order the
Rust `sort_by` calls sort by (ascending). -/
def sortLe (a b : F) : Prop := cmpE a b ≠ .gt

instance : DecidableRel sortLe := fun a b => by
  unfold sortLe; infer_instance

/-- Model of `f64::is_finite`. -/
def isFinite : F → Bool
  | fin _ => true
  | _ => false

/-- Extract the rational value of a finite `F` (junk value `0` otherwise). -/
def toQ : F → ℚ
  | fin q => q
  | _ => 0

end F

/-- `u64 as f64` (exact; conversion rounding abstracted). -/
def natToF (n : ℕ) : F := F.fin n

/-- `struct FeeRateAndWeight { fee_rate: f64, weight: u64 }` -/
structure FeeRateAndWeight where
  fee_rate : F
  weight : ℕ
deriving DecidableEq, Repr

/-- `struct FeeRateEstimate { high: f64, middle: f64, low: f64 }`
(from `super::FeeRateEstimate`; the three fields are exactly the ones
read and written by `fee_medians.rs`). -/
structure FeeRateEstimate where
  high : F
  middle : F
  low : F
deriving DecidableEq, Repr

/-- Junk default used for out-of-bounds list reads (never reached under
the bounds proved below). -/
def dfltFRW : FeeRateAndWeight := ⟨F.nan, 0⟩

/-- The `total_weight` accumulation loop of
`fee_rate_estimate_from_sorted_weighted_fees` (lines 245–248):
`for rate_and_weight in sorted_fee_rates { total_weight += rate_and_weight.weight }`. -/
def totalWeight (l : List FeeRateAndWeight) : ℕ :=
  l.foldl (fun acc x => acc + x.weight) 0

/-- One midpoint-percentile value (line 253–254):
`(cumulative_weight as f64 - rate_and_weight.weight as f64 / 2f64) / total_weight as f64`. -/
def pctF (cum w total : ℕ) : F :=
  F.div (F.sub (natToF cum) (F.div (natToF w) (natToF 2))) (natToF total)

/-- The percentile-building loop (lines 249–256), with the running
`cumulative_weight` made explicit. -/
def percentilesGo (total : ℕ) : ℕ → List FeeRateAndWeight → List F
  | _, [] => []
  | cum, x :: xs =>
      pctF (cum + x.weight) x.weight total :: percentilesGo total (cum + x.weight) xs

/-- The full `percentiles` vector of
`fee_rate_estimate_from_sorted_weighted_fees`. -/
def percentilesOf (l : List FeeRateAndWeight) (total : ℕ) : List F :=
  percentilesGo total 0 l

/-- The forward scan
`while fees_index < percentiles.len() && percentiles[fees_index] < target_percentile { fees_index += 1 }`
written with explicit fuel (the loop advances at most `ps.length - i`
times, so `advance` below supplies exactly that much fuel). -/
def scanForward (ps : List F) (t : F) : ℕ → ℕ → ℕ
  | 0, i => i
  | fuel + 1, i =>
      if i < ps.length then
        if F.lt (ps.getD i F.nan) t then scanForward ps t fuel (i + 1) else i
      else i

/-- Final value of `fees_index` after scanning for target `t` starting
from index `i`. -/
def advance (ps : List F) (t : F) (i : ℕ) : ℕ :=
  scanForward ps t (ps.length - i) i

/-- The per-target value computation (lines 268–282): first rate if the
scan stopped at index 0, last rate if it ran past the end, otherwise the
weighted-percentile linear interpolation. -/
def valueAt (sorted : List FeeRateAndWeight) (ps : List F) (t : F) (k : ℕ) : F :=
  if k = 0 then (sorted.headD dfltFRW).fee_rate
  else if k = ps.length then (sorted.getLastD dfltFRW).fee_rate
  else
    let vk := (sorted.getD (k - 1) dfltFRW).fee_rate
    let vk1 := (sorted.getD k dfltFRW).fee_rate
    let pk := ps.getD (k - 1) F.nan
    let pk1 := ps.getD k F.nan
    F.add vk (F.mul (F.div (F.sub t pk) (F.sub pk1 pk)) (F.sub vk1 vk))

/-- Target percentile `0.05`. -/
def t05 : F := F.fin (5 / 100 : ℚ)
/-- Target percentile `0.5`. -/
def t50 : F := F.fin (5 / 10 : ℚ)
/-- Target percentile `0.95`. -/
def t95 : F := F.fin (95 / 100 : ℚ)

/-- `fee_rate_estimate_from_sorted_weighted_fees` (lines 238–291).
The `panic!` on an empty input is modelled by returning `none`; on a
non-empty input the function always returns `some` estimate.  The single
`fees_index` shared by the three targets (scanned in ascending order
0.05, 0.5, 0.95) is threaded through the three `advance` calls. -/
def fee_rate_estimate_from_sorted_weighted_fees
    (sorted_fee_rates : List FeeRateAndWeight) : Option FeeRateEstimate :=
  if sorted_fee_rates.isEmpty then none
  else
    let total := totalWeight sorted_fee_rates
    let ps := percentilesOf sorted_fee_rates total
    let k1 := advance ps t05 0
    let v1 := valueAt sorted_fee_rates ps t05 k1
    let k2 := advance ps t50 k1
    let v2 := valueAt sorted_fee_rates ps t50 k2
    let k3 := advance ps t95 k2
    let v3 := valueAt sorted_fee_rates ps t95 k3
    some { high := v3, middle := v2, low := v1 }

/-- `maybe_add_minimum_fee_rate` (lines 293–310). -/
def maybe_add_minimum_fee_rate (working_rates : List FeeRateAndWeight)
    (full_block_weight : ℕ) : List FeeRateAndWeight :=
  let total_weight := totalWeight working_rates
  if total_weight < full_block_weight then
    working_rates ++ [{ fee_rate := F.fin 1, weight := full_block_weight - total_weight }]
  else working_rates

/-- `full_block_weight = 6 * PROPORTION_RESOLUTION` (line 88), as a
function of the cost metric's resolution constant (the constant itself
lives in `metrics.rs`, outside this file's source). -/
def full_block_weight (resolution : ℕ) : ℕ := 6 * resolution

/-! ## Transaction receipts and the cost-metric collaborator

The receipt and metric types below are the *interface* the estimator
consumes (spec §6); their internals live outside `fee_medians.rs`.  Only
the fields actually read by the source are modelled. -/

/-- Modelled from the spec: the multi-dimensional resource-cost vector
(`vm::costs::ExecutionCost`, an external collaborator; the estimator
treats it opaquely and only hands it to the cost metric). -/
structure ExecutionCost where
  write_length : ℕ
  write_count : ℕ
  read_length : ℕ
  read_count : ℕ
  runtime : ℕ
deriving DecidableEq, Repr

/-- The transaction payload kinds distinguished by
`fee_rate_and_weight_from_receipt` (payload arguments are never read). -/
inductive TransactionPayload : Type where
  | TokenTransfer : TransactionPayload
  | Coinbase : TransactionPayload
  | PoisonMicroblock : TransactionPayload
  | ContractCall : TransactionPayload
  | SmartContract : TransactionPayload
deriving DecidableEq, Repr

/-- The fields of a Stacks transaction read by the estimator:
`tx.payload`, `tx.get_tx_fee()` (a `u64`), `tx.tx_len()` (a `u64`). -/
structure StacksTransaction where
  payload : TransactionPayload
  fee : ℕ
  tx_len : ℕ
deriving DecidableEq, Repr

/-- `chainstate::stacks::events::TransactionOrigin`. -/
inductive TransactionOrigin : Type where
  | Stacks : StacksTransaction → TransactionOrigin
  | Burn : TransactionOrigin
deriving DecidableEq, Repr

/-- The fields of `StacksTransactionReceipt` read by the estimator. -/
structure StacksTransactionReceipt where
  transaction : TransactionOrigin
  execution_cost : ExecutionCost
deriving DecidableEq, Repr

/-- Modelled from the spec: the `CostMetric` collaborator — two pure
functions `from_len` and `from_cost_and_len` returning a non-negative
scalar cost (`u64`). -/
structure CostMetric where
  from_len : ℕ → ℕ
  from_cost_and_len : ExecutionCost → ExecutionCost → ℕ → ℕ

/-- `fee_rate_and_weight_from_receipt` (lines 312–368).  `none` models
the `None` returns (burn-origin and coinbase receipts). -/
def fee_rate_and_weight_from_receipt (metric : CostMetric)
    (tx_receipt : StacksTransactionReceipt) (block_limit : ExecutionCost) :
    Option FeeRateAndWeight :=
  match tx_receipt.transaction with
  | .Burn => none
  | .Stacks tx =>
    let fee := tx.fee
    let tx_size := tx.tx_len
    match tx.payload with
    | .Coinbase => none
    | .TokenTransfer =>
        mk_rate_and_weight fee (metric.from_len tx_size)
    | .PoisonMicroblock =>
        mk_rate_and_weight fee
          (metric.from_cost_and_len tx_receipt.execution_cost block_limit tx_size)
    | .ContractCall =>
        mk_rate_and_weight fee
          (metric.from_cost_and_len tx_receipt.execution_cost block_limit tx_size)
    | .SmartContract =>
        mk_rate_and_weight fee
          (metric.from_cost_and_len tx_receipt.execution_cost block_limit tx_size)
where
  /-- Lines 347–367: the denominator clamp, the fee-rate division, and
  the `>= 1.0 && is_finite` rate clamp (weight kept in both branches). -/
  mk_rate_and_weight (fee scalar_cost : ℕ) : Option FeeRateAndWeight :=
    let denominator : F := if scalar_cost ≥ 1 then natToF scalar_cost else F.fin 1
    let fee_rate : F := F.div (natToF fee) denominator
    if F.le (F.fin 1) fee_rate ∧ F.isFinite fee_rate then
      some { fee_rate := fee_rate, weight := scalar_cost }
    else
      some { fee_rate := F.fin 1, weight := scalar_cost }

/-- The sort of `notify_block` (lines 219–223):
`working_fee_rates.sort_by(|a, b| a.fee_rate.partial_cmp(&b.fee_rate).unwrap_or(Ordering::Equal))`.
Rust's stable slice sort is modelled by a stable insertion sort over the
same comparator (for a comparator that is a total preorder — the case in
every reachable input, where all rates are finite — every stable sort
produces the same list). -/
def sortSamples (l : List FeeRateAndWeight) : List FeeRateAndWeight :=
  List.insertionSort (fun a b => F.sortLe a.fee_rate b.fee_rate) l

/-- The per-block estimate computed by `notify_block` (lines 200–230)
before it is handed to `update_estimate`: filter-map the receipts,
synthesize the filler sample, and — when the working set is non-empty —
sort and run the weighted-percentile computation.  `none` means no
estimate is emitted for the block. -/
def notify_block_estimate (metric : CostMetric)
    (tx_receipts : List StacksTransactionReceipt)
    (block_limit : ExecutionCost) (fbw : ℕ) : Option FeeRateEstimate :=
  let working_fee_rates :=
    tx_receipts.filterMap (fun r => fee_rate_and_weight_from_receipt metric r block_limit)
  let working_fee_rates := maybe_add_minimum_fee_rate working_fee_rates fbw
  if working_fee_rates.length > 0 then
    fee_rate_estimate_from_sorted_weighted_fees (sortSamples working_fee_rates)
  else none

/-! ## The windowed estimate store -/

/-- `EstimatorError` (from `super`); only the variant produced in this
source file is needed. -/
inductive EstimatorError : Type where
  | NoEstimateAvailable : EstimatorError
deriving DecidableEq, Repr

/-- The persisted `median_fee_estimator` table: rows
`(measure_key, high, middle, low)` in insertion (= ascending
`measure_key`) order, plus the AUTOINCREMENT counter (next key to
assign; starts at 1 on a fresh table). -/
structure EstimatorState where
  rows : List (ℕ × FeeRateEstimate)
  next_key : ℕ
deriving DecidableEq, Repr

/-- A freshly instantiated (empty) store. -/
def emptyState : EstimatorState := { rows := [], next_key := 1 }

/-- `SELECT high, middle, low FROM median_fee_estimator ORDER BY
measure_key DESC LIMIT window_size` — the window read of
`get_rate_estimates_from_sql` (lines 110–132), given rows stored in
ascending key order. -/
def selectWindow (s : EstimatorState) (window_size : ℕ) : List FeeRateEstimate :=
  ((s.rows.reverse).take window_size).map Prod.snd

/-- Sort a float column with the NaN-tolerant comparator (lines 150–152). -/
def sortColumn (l : List F) : List F := List.insertionSort F.sortLe l

/-- The local `median` helper (lines 138–146): middle element for odd
length, mean of the two central elements for even length (callers
guarantee non-emptiness). -/
def medianF (l : List F) : F :=
  if l.length % 2 = 1 then l.getD (l.length / 2) F.nan
  else F.div (F.add (l.getD (l.length / 2) F.nan) (l.getD (l.length / 2 - 1) F.nan))
         (F.fin 2)

/-- `get_rate_estimates_from_sql` (lines 106–159). -/
def get_rate_estimates_from_sql (s : EstimatorState) (window_size : ℕ) :
    Except EstimatorError FeeRateEstimate :=
  let rows := selectWindow s window_size
  let highs := rows.map (·.high)
  let mids := rows.map (·.middle)
  let lows := rows.map (·.low)
  if highs.isEmpty ∨ mids.isEmpty ∨ lows.isEmpty then
    .error .NoEstimateAvailable
  else
    .ok { high := medianF (sortColumn highs)
        , middle := medianF (sortColumn mids)
        , low := medianF (sortColumn lows) }

/-- `SELECT MAX(measure_key)` over the table rows (non-empty at the
point of use; `0` is junk for the empty table). -/
def maxKey (rows : List (ℕ × FeeRateEstimate)) : ℕ :=
  (rows.map Prod.fst).foldl max 0

/-- `update_estimate` (lines 161–194), success path: one transaction that
(1) inserts the new row under the next AUTOINCREMENT key, (2) deletes
every row with `measure_key <= MAX(measure_key) - window_size` (SQLite
evaluates this in 64-bit signed arithmetic, modelled in `ℤ`), and
(3) commits.  The aggregate read before the commit does not change
state. -/
def update_estimate (s : EstimatorState) (window_size : ℕ)
    (new_measure : FeeRateEstimate) : EstimatorState :=
  let rows1 := s.rows ++ [(s.next_key, new_measure)]
  let cutoff : ℤ := (maxKey rows1 : ℤ) - (window_size : ℤ)
  { rows := rows1.filter (fun p => !((p.1 : ℤ) ≤ cutoff))
  , next_key := s.next_key + 1 }

/-- `n` successive `record` operations (`update_estimate` calls) on an
initially empty store, recording estimate `f i` at step `i`. -/
def recordSeq (f : ℕ → FeeRateEstimate) (window_size : ℕ) : ℕ → EstimatorState
  | 0 => emptyState
  | n + 1 => update_estimate (recordSeq f window_size n) window_size (f n)

/-! ## Failure model for the `record` transaction

Every storage operation inside `update_estimate` is wrapped in
`.expect("SQLite failure")` (lines 162, 176, 179, and — inside the
aggregate read — 112, 125, 128, plus the commit on line 183), so a
failing operation aborts by panic; it never returns an error value.  An
uncommitted transaction is rolled back when dropped, so the persisted
state is left untouched. -/

/-- The storage operations of one `record` transaction, in program
order. -/
inductive DbStep : Type where
  | beginTx : DbStep
  | insert : DbStep
  | delete : DbStep
  | readAggregate : DbStep
  | commit : DbStep
deriving DecidableEq, Repr

/-- Outcome of a `record` under injected storage failures: either the
transaction committed, or the process panicked (`expect`) with the
persisted state it left behind.  No constructor returns an error value
to the caller, because the source has no error path. -/
inductive RecordOutcome : Type where
  | committed : EstimatorState → RecordOutcome
  | panicked : String → EstimatorState → RecordOutcome
deriving DecidableEq, Repr

/-- `update_estimate` under a failure-injection schedule `fails`: the
first storage operation whose injected result is a failure triggers the
`expect` panic; the open transaction is dropped and rolled back, leaving
the pre-transaction state.  With no failure injected the transaction
commits to exactly `update_estimate`'s result. -/
def update_estimate_withFailures (s : EstimatorState) (window_size : ℕ)
    (new_measure : FeeRateEstimate) (fails : DbStep → Bool) : RecordOutcome :=
  if fails .beginTx then .panicked "SQLite failure" s
  else if fails .insert then .panicked "SQLite failure" s
  else if fails .delete then .panicked "SQLite failure" s
  else if fails .readAggregate then .panicked "SQLite failure" s
  else if fails .commit then .panicked "SQLite failure" s
  else .committed (update_estimate s window_size new_measure)

/-! ## Spec-side definitions (for the refinement claims)

These two definitions follow the *spec's words* for the percentile rule
("scan forward through `p_i` to find the smallest index `k` with
`p_k ≥ t`"; first rate when `k = 0`, last rate when no index qualifies,
interpolation otherwise) and are compared against the code's shared
forward scan. -/

/-- The smallest index `k` with `p_k ≥ t` (an IEEE `>=` comparison),
`= ps.length` when no index qualifies. -/
def specSmallestIdx (ps : List F) (t : F) : ℕ :=
  ps.findIdx (fun p => F.le t p)

/-- The spec's percentile rule for one target. -/
def specPercentileValue (sorted : List FeeRateAndWeight) (ps : List F) (t : F) : F :=
  let k := specSmallestIdx ps t
  if k = 0 then (sorted.headD dfltFRW).fee_rate
  else if k = ps.length then (sorted.getLastD dfltFRW).fee_rate
  else
    let vk := (sorted.getD (k - 1) dfltFRW).fee_rate
    let vk1 := (sorted.getD k dfltFRW).fee_rate
    let pk := ps.getD (k - 1) F.nan
    let pk1 := ps.getD k F.nan
    F.add vk (F.mul (F.div (F.sub t pk) (F.sub pk1 pk)) (F.sub vk1 vk))

/-! ## Derived definitions used by the verification -/

/-- Weight of the `i`-th sample (junk `0` out of bounds). -/
def wgt (l : List FeeRateAndWeight) (i : ℕ) : ℕ := (l.getD i dfltFRW).weight

/-- Running cumulative weight through sample `i`. -/
def cumW (l : List FeeRateAndWeight) (i : ℕ) : ℕ :=
  ((l.take (i + 1)).map (·.weight)).sum

/-- The `i`-th midpoint percentile as an exact rational (meaningful when
`0 < total`). -/
def qpOf (l : List FeeRateAndWeight) (total : ℕ) (i : ℕ) : ℚ :=
  ((cumW l i : ℚ) - (wgt l i : ℚ) / 2) / (total : ℚ)

/-- Fee rate of the `i`-th sample as a rational (junk when not finite). -/
def qv (l : List FeeRateAndWeight) (i : ℕ) : ℚ := ((l.getD i dfltFRW).fee_rate).toQ

/-- All fee rates in the list are finite floats. -/
def ratesFin (l : List FeeRateAndWeight) : Prop :=
  ∀ x ∈ l, x.fee_rate.isFinite = true

instance (l : List FeeRateAndWeight) : Decidable (ratesFin l) := by
  unfold ratesFin; infer_instance

/-- All fee rates are at least the finite float `1.0`. -/
def ratesGeOne (l : List FeeRateAndWeight) : Prop :=
  ∀ x ∈ l, F.le (F.fin 1) x.fee_rate = true

instance (l : List FeeRateAndWeight) : Decidable (ratesGeOne l) := by
  unfold ratesGeOne; infer_instance

/-- Characterization of a stopping point of the forward scan for target
`t`: every percentile strictly before `k` compares `< t`, and the one at
`k` (when in bounds) does not. -/
def ScanChar (ps : List F) (t : F) (k : ℕ) : Prop :=
  k ≤ ps.length ∧
  (∀ m, m < k → F.lt (ps.getD m F.nan) t = true) ∧
  (k < ps.length → F.lt (ps.getD k F.nan) t = false)

/-- The `percentiles` vector built by
`fee_rate_estimate_from_sorted_weighted_fees` for input `l`. -/
def psOf (l : List FeeRateAndWeight) : List F := percentilesOf l (totalWeight l)

/-- `fees_index` after the target-0.05 scan. -/
def kIdx1 (l : List FeeRateAndWeight) : ℕ := advance (psOf l) t05 0
/-- `fees_index` after the target-0.5 scan. -/
def kIdx2 (l : List FeeRateAndWeight) : ℕ := advance (psOf l) t50 (kIdx1 l)
/-- `fees_index` after the target-0.95 scan. -/
def kIdx3 (l : List FeeRateAndWeight) : ℕ := advance (psOf l) t95 (kIdx2 l)

/-- The rational value of `valueAt` on finite inputs (meaningful under a
`ScanChar` for `k`). -/
def valueQ (l : List FeeRateAndWeight) (qp : ℕ → ℚ) (tq : ℚ) (k : ℕ) : ℚ :=
  if k = 0 then qv l 0
  else if k = l.length then qv l (l.length - 1)
  else qv l (k - 1) + (tq - qp (k - 1)) / (qp k - qp (k - 1)) * (qv l k - qv l (k - 1))

/-- "Sorted ascending by `fee_rate`": every earlier sample's rate
compares `<=` (IEEE) to every later one's. -/
def sortedByRate (l : List FeeRateAndWeight) : Prop :=
  List.Pairwise (fun a b => F.le a.fee_rate b.fee_rate = true) l

instance (l : List FeeRateAndWeight) : Decidable (sortedByRate l) := by
  unfold sortedByRate; infer_instance

/-- All fee rates are finite and at least 1. -/
def ratesFinGeOne (l : List FeeRateAndWeight) : Prop :=
  ∀ x ∈ l, ∃ q, x.fee_rate = F.fin q ∧ 1 ≤ q

/-- The rows that are expected to survive after `n` records with window
`w`: keys `k ∈ [1, n]` with `n < k + w`, paired with their recorded
estimates. -/
def expectedRows (f : ℕ → FeeRateEstimate) (w n : ℕ) : List (ℕ × FeeRateEstimate) :=
  ((List.range' 1 n).filter (fun j => decide (n < j + w))).map (fun j => (j, f (j - 1)))

/-! ## Basic facts about the float model -/

namespace F

@[simp] theorem sub_fin (a b : ℚ) : sub (fin a) (fin b) = fin (a - b) := by
  simp [sub, add, neg, sub_eq_add_neg]

@[simp] theorem add_fin (a b : ℚ) : add (fin a) (fin b) = fin (a + b) := rfl

@[simp] theorem mul_fin (a b : ℚ) : mul (fin a) (fin b) = fin (a * b) := rfl

theorem div_fin {b : ℚ} (a : ℚ) (hb : b ≠ 0) : div (fin a) (fin b) = fin (a / b) := by
  simp [div, hb]

@[simp] theorem lt_fin (a b : ℚ) : lt (fin a) (fin b) = decide (a < b) := rfl

@[simp] theorem le_fin (a b : ℚ) : le (fin a) (fin b) = decide (a ≤ b) := rfl

theorem isFinite_iff {x : F} : x.isFinite = true ↔ ∃ q, x = fin q := by
  cases x <;> simp [isFinite]

end F

/-! ## Percentile-vector lemmas -/



theorem totalWeight_go (l : List FeeRateAndWeight) :
    ∀ a : ℕ, l.foldl (fun acc x => acc + x.weight) a = a + (l.map (·.weight)).sum := by
  induction l with
  | nil => simp
  | cons x xs ih => intro a; simp [List.foldl_cons, ih]; omega

theorem totalWeight_eq_sum (l : List FeeRateAndWeight) :
    totalWeight l = (l.map (·.weight)).sum := by
  simpa using totalWeight_go l 0

theorem length_percentilesGo (total : ℕ) :
    ∀ (l : List FeeRateAndWeight) (c : ℕ), (percentilesGo total c l).length = l.length := by
  intro l
  induction l with
  | nil => intro c; rfl
  | cons x xs ih => intro c; simp [percentilesGo, ih]

theorem length_percentilesOf (l : List FeeRateAndWeight) (total : ℕ) :
    (percentilesOf l total).length = l.length :=
  length_percentilesGo total l 0

theorem percentilesGo_getD (total : ℕ) :
    ∀ (l : List FeeRateAndWeight) (c i : ℕ), i < l.length →
      (percentilesGo total c l).getD i F.nan =
        pctF (c + ((l.take (i + 1)).map (·.weight)).sum) ((l.getD i dfltFRW).weight) total := by
  intro l
  induction l with
  | nil => intro c i h; simp at h
  | cons x xs ih =>
    intro c i h
    cases i with
    | zero => simp [percentilesGo]
    | succ i =>
      have hi : i < xs.length := by simpa using h
      simp only [percentilesGo, List.getD_cons_succ, List.take_succ_cons, List.map_cons,
        List.sum_cons]
      rw [ih (c + x.weight) i hi]
      ring_nf

theorem percentilesOf_getD (l : List FeeRateAndWeight) (total : ℕ) (i : ℕ)
    (h : i < l.length) :
    (percentilesOf l total).getD i F.nan = pctF (cumW l i) (wgt l i) total := by
  simpa [cumW, wgt] using percentilesGo_getD total l 0 i h

theorem pctF_of_pos {total : ℕ} (cum w : ℕ) (h : 0 < total) :
    pctF cum w total = F.fin (((cum : ℚ) - (w : ℚ) / 2) / (total : ℚ)) := by
  have h2 : (2 : ℚ) ≠ 0 := by norm_num
  have ht : (total : ℚ) ≠ 0 := by exact_mod_cast Nat.pos_iff_ne_zero.mp h
  simp [pctF, natToF, F.div_fin _ h2, F.div_fin _ ht]

theorem percentilesOf_getD_pos (l : List FeeRateAndWeight) {total : ℕ} (i : ℕ)
    (h : i < l.length) (ht : 0 < total) :
    (percentilesOf l total).getD i F.nan = F.fin (qpOf l total i) := by
  rw [percentilesOf_getD l total i h, pctF_of_pos _ _ ht]; rfl

theorem sum_take_succ_nat (w : List ℕ) :
    ∀ i, i < w.length → (w.take (i + 1)).sum = (w.take i).sum + w.getD i 0 := by
  induction w with
  | nil => intro i h; simp at h
  | cons x xs ih =>
    intro i h
    cases i with
    | zero => simp
    | succ i =>
      have hi : i < xs.length := by simpa using h
      simp only [List.take_succ_cons, List.sum_cons, List.getD_cons_succ]
      rw [ih i hi]; omega

theorem getD_mem_of_lt {α : Type _} {l : List α} {i : ℕ} (h : i < l.length) (d : α) :
    l.getD i d ∈ l := by
  rw [List.getD_eq_getElem _ _ h]
  exact List.getElem_mem h

theorem getD_map_weight (l : List FeeRateAndWeight) (i : ℕ) (h : i < l.length) :
    (l.map (·.weight)).getD i 0 = wgt l i := by
  unfold wgt
  rw [List.getD_eq_getElem _ _ (by simpa using h), List.getD_eq_getElem _ _ h]
  simp

theorem cumW_succ (l : List FeeRateAndWeight) (i : ℕ) (h : i + 1 < l.length) :
    cumW l (i + 1) = cumW l i + wgt l (i + 1) := by
  unfold cumW
  have := sum_take_succ_nat (l.map (·.weight)) (i + 1) (by simpa using h)
  rw [← List.map_take, ← List.map_take, getD_map_weight l (i + 1) h] at this
  exact this

theorem cumW_le_total (l : List FeeRateAndWeight) (i : ℕ) :
    cumW l i ≤ totalWeight l := by
  rw [totalWeight_eq_sum, cumW]
  have hsplit : l.map (·.weight) =
      (l.take (i + 1)).map (·.weight) ++ (l.drop (i + 1)).map (·.weight) := by
    rw [← List.map_append, List.take_append_drop]
  rw [hsplit, List.sum_append]
  exact Nat.le_add_right _ _

theorem qpOf_mono_succ (l : List FeeRateAndWeight) {total : ℕ} (ht : 0 < total)
    (i : ℕ) (h : i + 1 < l.length) : qpOf l total i ≤ qpOf l total (i + 1) := by
  have htq : (0 : ℚ) < (total : ℚ) := by exact_mod_cast ht
  unfold qpOf
  rw [div_le_div_iff_of_pos_right htq]
  rw [cumW_succ l i h]
  have h1 : (0 : ℚ) ≤ (wgt l i : ℚ) := by positivity
  have h2 : (0 : ℚ) ≤ (wgt l (i + 1) : ℚ) := by positivity
  push_cast
  linarith

theorem qpOf_mono (l : List FeeRateAndWeight) {total : ℕ} (ht : 0 < total)
    {i j : ℕ} (hij : i ≤ j) (hj : j < l.length) :
    qpOf l total i ≤ qpOf l total j := by
  induction j with
  | zero => simp_all
  | succ j ih =>
    rcases Nat.lt_or_ge i (j + 1) with h | h
    · exact le_trans (ih (Nat.lt_succ_iff.mp h) (by omega)) (qpOf_mono_succ l ht j hj)
    · have : i = j + 1 := le_antisymm hij h
      simp [this]

theorem weights_zero_of_total_zero {l : List FeeRateAndWeight}
    (h : totalWeight l = 0) : ∀ x ∈ l, x.weight = 0 := by
  rw [totalWeight_eq_sum] at h
  intro x hx
  have := List.sum_eq_zero_iff.mp h
  exact this _ (List.mem_map_of_mem _ hx)

theorem percentilesOf_getD_zero_total {l : List FeeRateAndWeight}
    (h : totalWeight l = 0) (i : ℕ) (hi : i < l.length) :
    (percentilesOf l 0).getD i F.nan = F.nan := by
  rw [percentilesOf_getD l 0 i hi]
  have hw : wgt l i = 0 := by
    exact weights_zero_of_total_zero h _ (getD_mem_of_lt hi dfltFRW)
  have hc : cumW l i = 0 := by
    have := cumW_le_total l i
    omega
  have h2 : (2 : ℚ) ≠ 0 := by norm_num
  simp [hc, hw, pctF, natToF, F.div_fin _ h2, F.div]

/-! ## Forward-scan characterization -/



theorem scanForward_ge (ps : List F) (t : F) :
    ∀ (fuel i : ℕ), i ≤ scanForward ps t fuel i := by
  intro fuel
  induction fuel with
  | zero => intro i; simp [scanForward]
  | succ fuel ih =>
    intro i
    simp only [scanForward]
    split
    · split
      · exact le_trans (Nat.le_succ i) (ih (i + 1))
      · exact le_refl i
    · exact le_refl i

theorem scanForward_le (ps : List F) (t : F) :
    ∀ (fuel i : ℕ), i ≤ ps.length → scanForward ps t fuel i ≤ ps.length := by
  intro fuel
  induction fuel with
  | zero => intro i h; simpa [scanForward] using h
  | succ fuel ih =>
    intro i h
    simp only [scanForward]
    split
    · split
      · exact ih (i + 1) (by omega)
      · exact h
    · exact h

theorem scanForward_succ (ps : List F) (t : F) (fuel i : ℕ) :
    scanForward ps t (fuel + 1) i =
      if i < ps.length then
        (if F.lt (ps.getD i F.nan) t then scanForward ps t fuel (i + 1) else i)
      else i := rfl

theorem scanForward_before (ps : List F) (t : F) :
    ∀ (fuel i m : ℕ), i ≤ m → m < scanForward ps t fuel i →
      F.lt (ps.getD m F.nan) t = true := by
  intro fuel
  induction fuel with
  | zero => intro i m him hm; simp [scanForward] at hm; omega
  | succ fuel ih =>
    intro i m him hm
    rw [scanForward_succ] at hm
    split_ifs at hm with h1 h2
    · rcases Nat.eq_or_lt_of_le him with h | h
      · rw [← h]; exact h2
      · exact ih (i + 1) m h hm
    · omega
    · omega

theorem scanForward_stop (ps : List F) (t : F) :
    ∀ (fuel i : ℕ), ps.length - i ≤ fuel →
      scanForward ps t fuel i < ps.length →
      F.lt (ps.getD (scanForward ps t fuel i) F.nan) t = false := by
  intro fuel
  induction fuel with
  | zero => intro i hfuel h; simp [scanForward] at h ⊢; omega
  | succ fuel ih =>
    intro i hfuel h
    rw [scanForward_succ] at h ⊢
    split_ifs at h ⊢ with h1 h2
    · exact ih (i + 1) (by omega) h
    · simpa using h2
    · omega

theorem scanForward_eq_of_char (ps : List F) (t : F) :
    ∀ (fuel i k : ℕ), ps.length - i ≤ fuel → i ≤ k → k ≤ ps.length →
      (∀ m, i ≤ m → m < k → F.lt (ps.getD m F.nan) t = true) →
      (k < ps.length → F.lt (ps.getD k F.nan) t = false) →
      scanForward ps t fuel i = k := by
  intro fuel
  induction fuel with
  | zero =>
    intro i k hfuel hik hk _ _
    simp only [scanForward]
    omega
  | succ fuel ih =>
    intro i k hfuel hik hk hbefore hstop
    rw [scanForward_succ]
    split_ifs with h1 h2
    · have hik1 : i + 1 ≤ k := by
        rcases Nat.eq_or_lt_of_le hik with h | h
        · exfalso
          have := hstop (h ▸ h1)
          rw [← h, h2] at this
          simp at this
        · omega
      exact ih (i + 1) k (by omega) hik1 hk (fun m hm hm' => hbefore m (by omega) hm')
        hstop
    · by_contra hne
      have hik' : i < k := by omega
      have := hbefore i (le_refl i) hik'
      rw [this] at h2
      simp at h2
    · omega

theorem advance_char (ps : List F) (t : F) (i : ℕ) (hi : i ≤ ps.length)
    (hprev : ∀ m, m < i → F.lt (ps.getD m F.nan) t = true) :
    ScanChar ps t (advance ps t i) := by
  refine ⟨scanForward_le ps t _ i hi, ?_, ?_⟩
  · intro m hm
    rcases Nat.lt_or_ge m i with h | h
    · exact hprev m h
    · exact scanForward_before ps t _ i m h hm
  · intro h
    exact scanForward_stop ps t _ i (le_refl _) h

theorem advance_eq_of_char (ps : List F) (t : F) (i k : ℕ) (hik : i ≤ k)
    (hchar : ScanChar ps t k) : advance ps t i = k := by
  obtain ⟨hk, hbefore, hstop⟩ := hchar
  exact scanForward_eq_of_char ps t _ i k (le_refl _) hik hk
    (fun m _ hm => hbefore m hm) hstop

theorem scanChar_unique {ps : List F} {t : F} {k k' : ℕ}
    (h : ScanChar ps t k) (h' : ScanChar ps t k') : k = k' := by
  obtain ⟨hk, hbefore, hstop⟩ := h
  obtain ⟨hk', hbefore', hstop'⟩ := h'
  by_contra hne
  rcases Nat.lt_or_ge k k' with hlt | hge
  · have h1 := hbefore' k hlt
    have h2 := hstop (by omega)
    rw [h1] at h2
    simp at h2
  · have hlt : k' < k := by omega
    have h1 := hbefore k' hlt
    have h2 := hstop' (by omega)
    rw [h1] at h2
    simp at h2

/-! ## `findIdx` characterization (for the spec-side smallest-index rule) -/

theorem findIdx_char {α : Type _} (p : α → Bool) (d : α) :
    ∀ l : List α,
      l.findIdx p ≤ l.length ∧
      (∀ m, m < l.findIdx p → p (l.getD m d) = false) ∧
      (l.findIdx p < l.length → p (l.getD (l.findIdx p) d) = true) := by
  intro l
  induction l with
  | nil => refine ⟨by simp [List.findIdx_nil], by simp [List.findIdx_nil], by simp⟩
  | cons x xs ih =>
    obtain ⟨ih1, ih2, ih3⟩ := ih
    by_cases hx : p x = true
    · refine ⟨by simp [List.findIdx_cons, hx], ?_, ?_⟩
      · intro m hm; simp [List.findIdx_cons, hx] at hm
      · intro _; simp [List.findIdx_cons, hx]
    · rw [Bool.not_eq_true] at hx
      refine ⟨?_, ?_, ?_⟩
      · simp [List.findIdx_cons, hx]; omega
      · intro m hm
        simp only [List.findIdx_cons, hx, cond_false] at hm
        cases m with
        | zero => simpa using hx
        | succ m => exact ih2 m (by omega)
      · intro h
        simp only [List.findIdx_cons, hx, cond_false] at h ⊢
        exact ih3 (by simpa using h)

/-! ## List access helpers -/

theorem headD_eq_getD {α : Type _} (l : List α) (d : α) (h : l ≠ []) :
    l.headD d = l.getD 0 d := by
  cases l with
  | nil => exact absurd rfl h
  | cons x xs => rfl

theorem getLastD_eq_getD {α : Type _} :
    ∀ (l : List α) (d : α), l ≠ [] → l.getLastD d = l.getD (l.length - 1) d := by
  intro l
  induction l with
  | nil => intro d h; exact absurd rfl h
  | cons x xs ih =>
    intro d h
    cases hxs : xs with
    | nil => rfl
    | cons y ys =>
      rw [← hxs]
      have hne : xs ≠ [] := by rw [hxs]; exact List.cons_ne_nil _ _
      have h1 : (x :: xs).getLastD d = xs.getLastD x := by
        rw [hxs]; rfl
      rw [h1, ih x hne]
      have hlen : 0 < xs.length := List.length_pos.mpr hne
      have h2 : (x :: xs).length - 1 = (xs.length - 1) + 1 := by
        simp [List.length_cons]; omega
      rw [h2, List.getD_cons_succ]
      rw [List.getD_eq_getElem _ _ (by omega), List.getD_eq_getElem _ _ (by omega)]

/-! ## The estimate as three scanned values -/



theorem length_psOf (l : List FeeRateAndWeight) : (psOf l).length = l.length :=
  length_percentilesOf l (totalWeight l)

theorem estimate_eq_values (l : List FeeRateAndWeight) (hne : l ≠ []) :
    fee_rate_estimate_from_sorted_weighted_fees l =
      some { high := valueAt l (psOf l) t95 (kIdx3 l)
           , middle := valueAt l (psOf l) t50 (kIdx2 l)
           , low := valueAt l (psOf l) t05 (kIdx1 l) } := by
  cases l with
  | nil => exact absurd rfl hne
  | cons x xs => rfl

theorem kIdx1_char (l : List FeeRateAndWeight) : ScanChar (psOf l) t05 (kIdx1 l) :=
  advance_char _ _ 0 (Nat.zero_le _) (fun m hm => absurd hm (Nat.not_lt_zero m))

theorem psOf_getD_pos (l : List FeeRateAndWeight) (htot : 0 < totalWeight l)
    {i : ℕ} (hi : i < l.length) :
    (psOf l).getD i F.nan = F.fin (qpOf l (totalWeight l) i) :=
  percentilesOf_getD_pos l i hi htot

theorem char_before_q {l : List FeeRateAndWeight} (htot : 0 < totalWeight l)
    {tq : ℚ} {k : ℕ} (hchar : ScanChar (psOf l) (F.fin tq) k)
    {m : ℕ} (hm : m < k) : qpOf l (totalWeight l) m < tq := by
  obtain ⟨hk, hbefore, _⟩ := hchar
  have hmn : m < l.length := by
    have := length_psOf l; omega
  have := hbefore m hm
  rw [psOf_getD_pos l htot hmn] at this
  simpa using this

theorem char_stop_q {l : List FeeRateAndWeight} (htot : 0 < totalWeight l)
    {tq : ℚ} {k : ℕ} (hchar : ScanChar (psOf l) (F.fin tq) k)
    (hk : k < l.length) : tq ≤ qpOf l (totalWeight l) k := by
  obtain ⟨_, _, hstop⟩ := hchar
  have := hstop (by rw [length_psOf]; exact hk)
  rw [psOf_getD_pos l htot hk] at this
  simp at this
  exact this

theorem kIdx2_char (l : List FeeRateAndWeight) (htot : 0 < totalWeight l) :
    ScanChar (psOf l) t50 (kIdx2 l) := by
  apply advance_char _ _ _ (kIdx1_char l).1
  intro m hm
  have hmn : m < l.length := by
    have h1 := (kIdx1_char l).1
    have := length_psOf l; omega
  have hq := char_before_q htot (kIdx1_char l) hm
  rw [psOf_getD_pos l htot hmn]
  simp only [t50, F.lt_fin, decide_eq_true_iff]
  have : (5 / 100 : ℚ) < 5 / 10 := by norm_num
  linarith

theorem kIdx3_char (l : List FeeRateAndWeight) (htot : 0 < totalWeight l) :
    ScanChar (psOf l) t95 (kIdx3 l) := by
  apply advance_char _ _ _ (kIdx2_char l htot).1
  intro m hm
  have hmn : m < l.length := by
    have h1 := (kIdx2_char l htot).1
    have := length_psOf l; omega
  have hq := char_before_q htot (kIdx2_char l htot) hm
  rw [psOf_getD_pos l htot hmn]
  simp only [t95, F.lt_fin, decide_eq_true_iff]
  have : (5 / 10 : ℚ) < 95 / 100 := by norm_num
  linarith

theorem kIdx1_le (l : List FeeRateAndWeight) : kIdx1 l ≤ kIdx2 l :=
  scanForward_ge _ _ _ _

theorem kIdx2_le (l : List FeeRateAndWeight) : kIdx2 l ≤ kIdx3 l :=
  scanForward_ge _ _ _ _

/-! ## Evaluating the per-target value on finite inputs -/

theorem rate_getD_fin {l : List FeeRateAndWeight} (hfin : ratesFin l) {i : ℕ}
    (hi : i < l.length) : (l.getD i dfltFRW).fee_rate = F.fin (qv l i) := by
  have hmem := getD_mem_of_lt hi dfltFRW
  obtain ⟨q, hq⟩ := F.isFinite_iff.mp (hfin _ hmem)
  unfold qv
  rw [hq]
  rfl



theorem valueAt_eval (l : List FeeRateAndWeight) (hne : l ≠ []) (hfin : ratesFin l)
    (htot : 0 < totalWeight l) {tq : ℚ} {k : ℕ}
    (hchar : ScanChar (psOf l) (F.fin tq) k) :
    valueAt l (psOf l) (F.fin tq) k = F.fin (valueQ l (qpOf l (totalWeight l)) tq k) := by
  have hlen := length_psOf l
  have hnpos : 0 < l.length := List.length_pos.mpr hne
  have hkle : k ≤ l.length := by rw [← hlen]; exact hchar.1
  unfold valueAt valueQ
  rw [hlen]
  by_cases hk0 : k = 0
  · rw [if_pos hk0, if_pos hk0, headD_eq_getD _ _ hne, rate_getD_fin hfin hnpos]
  · rw [if_neg hk0, if_neg hk0]
    by_cases hkn : k = l.length
    · rw [if_pos hkn, if_pos hkn, getLastD_eq_getD _ _ hne,
        rate_getD_fin hfin (by omega)]
    · rw [if_neg hkn, if_neg hkn]
      have hklt : k < l.length := lt_of_le_of_ne hkle hkn
      have hk1lt : k - 1 < l.length := by omega
      have hbq : qpOf l (totalWeight l) (k - 1) < tq :=
        char_before_q htot hchar (by omega)
      have hsq : tq ≤ qpOf l (totalWeight l) k := char_stop_q htot hchar hklt
      have hdne : qpOf l (totalWeight l) k - qpOf l (totalWeight l) (k - 1) ≠ 0 := by
        intro h; rw [sub_eq_zero] at h; rw [h] at hsq; linarith
      rw [psOf_getD_pos l htot hk1lt, psOf_getD_pos l htot hklt,
        rate_getD_fin hfin hk1lt, rate_getD_fin hfin hklt]
      simp only [F.sub_fin, F.div_fin _ hdne, F.mul_fin, F.add_fin]

/-! ## Pure interpolation bounds -/

theorem interp_coeff_bounds {pk pk1 tq : ℚ} (h1 : pk < tq) (h2 : tq ≤ pk1) :
    0 < (tq - pk) / (pk1 - pk) ∧ (tq - pk) / (pk1 - pk) ≤ 1 := by
  have hd : (0 : ℚ) < pk1 - pk := by linarith
  constructor
  · exact div_pos (by linarith) hd
  · rw [div_le_one hd]; linarith

theorem interp_ge_of_ge {pk pk1 tq vk vk1 B : ℚ} (h1 : pk < tq) (h2 : tq ≤ pk1)
    (hvk : B ≤ vk) (hvk1 : B ≤ vk1) :
    B ≤ vk + (tq - pk) / (pk1 - pk) * (vk1 - vk) := by
  obtain ⟨hc0, hc1⟩ := interp_coeff_bounds h1 h2
  nlinarith [mul_le_mul_of_nonneg_left hvk1 (le_of_lt hc0),
    mul_le_mul_of_nonneg_left hvk (by linarith : (0 : ℚ) ≤ 1 - (tq - pk) / (pk1 - pk))]

theorem interp_mem_of_sorted {pk pk1 tq vk vk1 : ℚ} (h1 : pk < tq) (h2 : tq ≤ pk1)
    (hv : vk ≤ vk1) :
    vk ≤ vk + (tq - pk) / (pk1 - pk) * (vk1 - vk) ∧
    vk + (tq - pk) / (pk1 - pk) * (vk1 - vk) ≤ vk1 := by
  obtain ⟨hc0, hc1⟩ := interp_coeff_bounds h1 h2
  constructor
  · nlinarith [mul_nonneg (le_of_lt hc0) (by linarith : (0 : ℚ) ≤ vk1 - vk)]
  · nlinarith [mul_le_mul_of_nonneg_right hc1 (by linarith : (0 : ℚ) ≤ vk1 - vk)]

theorem interp_mono_t {pk pk1 tq tq' vk vk1 : ℚ} (h1 : pk < tq) (htt : tq ≤ tq')
    (h2 : tq' ≤ pk1) (hv : vk ≤ vk1) :
    vk + (tq - pk) / (pk1 - pk) * (vk1 - vk) ≤
      vk + (tq' - pk) / (pk1 - pk) * (vk1 - vk) := by
  have hd : (0 : ℚ) < pk1 - pk := by linarith
  have hcc : (tq - pk) / (pk1 - pk) ≤ (tq' - pk) / (pk1 - pk) :=
    (div_le_div_iff_of_pos_right hd).mpr (by linarith)
  nlinarith [mul_le_mul_of_nonneg_right hcc (by linarith : (0 : ℚ) ≤ vk1 - vk)]

/-! ## Monotonicity and lower bounds for the three scanned values -/

theorem valueQ_mono (l : List FeeRateAndWeight) (qp : ℕ → ℚ) {tq tq' : ℚ} {k k' : ℕ}
    (hn : 0 < l.length)
    (hsorted : ∀ i j, i ≤ j → j < l.length → qv l i ≤ qv l j)
    (hk' : k' ≤ l.length) (hkk : k ≤ k') (htq : tq ≤ tq')
    (hbef : ∀ m, m < k → qp m < tq) (hstop : k < l.length → tq ≤ qp k)
    (hbef' : ∀ m, m < k' → qp m < tq') (hstop' : k' < l.length → tq' ≤ qp k') :
    valueQ l qp tq k ≤ valueQ l qp tq' k' := by
  unfold valueQ
  by_cases hk'0 : k' = 0
  · have hk0 : k = 0 := by omega
    simp [hk0, hk'0]
  · rw [if_neg hk'0]
    by_cases hk'n : k' = l.length
    · rw [if_pos hk'n]
      by_cases hk0 : k = 0
      · rw [if_pos hk0]
        exact hsorted 0 (l.length - 1) (by omega) (by omega)
      · rw [if_neg hk0]
        by_cases hkn : k = l.length
        · rw [if_pos hkn]
        · rw [if_neg hkn]
          have hklt : k < l.length := by omega
          have h1 : qp (k - 1) < tq := hbef (k - 1) (by omega)
          have h2 : tq ≤ qp k := hstop hklt
          have hv : qv l (k - 1) ≤ qv l k := hsorted (k - 1) k (by omega) hklt
          exact le_trans (interp_mem_of_sorted h1 h2 hv).2
            (hsorted k (l.length - 1) (by omega) (by omega))
    · rw [if_neg hk'n]
      have hk'lt : k' < l.length := by omega
      have h1' : qp (k' - 1) < tq' := hbef' (k' - 1) (by omega)
      have h2' : tq' ≤ qp k' := hstop' hk'lt
      have hv' : qv l (k' - 1) ≤ qv l k' := hsorted (k' - 1) k' (by omega) hk'lt
      have hlb' := (interp_mem_of_sorted h1' h2' hv').1
      by_cases hkeq : k = k'
      · subst hkeq
        rw [if_neg hk'0, if_neg hk'n]
        have h1 : qp (k - 1) < tq := hbef (k - 1) (by omega)
        exact interp_mono_t h1 htq h2' hv'
      · have hklt' : k < k' := by omega
        by_cases hk0 : k = 0
        · rw [if_pos hk0]
          exact le_trans (hsorted 0 (k' - 1) (by omega) (by omega)) hlb'
        · rw [if_neg hk0]
          have hkn : k ≠ l.length := by omega
          rw [if_neg hkn]
          have hklt : k < l.length := by omega
          have h1 : qp (k - 1) < tq := hbef (k - 1) (by omega)
          have h2 : tq ≤ qp k := hstop hklt
          have hv : qv l (k - 1) ≤ qv l k := hsorted (k - 1) k (by omega) hklt
          refine le_trans (interp_mem_of_sorted h1 h2 hv).2 (le_trans ?_ hlb')
          exact hsorted k (k' - 1) (by omega) (by omega)

theorem valueQ_ge (l : List FeeRateAndWeight) (qp : ℕ → ℚ) {tq B : ℚ} {k : ℕ}
    (hn : 0 < l.length)
    (hB : ∀ i, i < l.length → B ≤ qv l i) (hk : k ≤ l.length)
    (hbef : ∀ m, m < k → qp m < tq) (hstop : k < l.length → tq ≤ qp k) :
    B ≤ valueQ l qp tq k := by
  unfold valueQ
  by_cases hk0 : k = 0
  · rw [if_pos hk0]; exact hB 0 hn
  · rw [if_neg hk0]
    by_cases hkn : k = l.length
    · rw [if_pos hkn]; exact hB (l.length - 1) (by omega)
    · rw [if_neg hkn]
      have hklt : k < l.length := by omega
      exact interp_ge_of_ge (hbef (k - 1) (by omega)) (hstop hklt)
        (hB (k - 1) (by omega)) (hB k hklt)

/-! ## The zero-total-weight (NaN percentile) analysis -/

theorem F.lt_nan_left (t : F) : F.lt F.nan t = false := by cases t <;> rfl

theorem advance_zero_of_nan_head {ps : List F} (t : F)
    (h : ps.getD 0 F.nan = F.nan) : advance ps t 0 = 0 := by
  apply advance_eq_of_char ps t 0 0 (le_refl 0)
  exact ⟨Nat.zero_le _, fun m hm => absurd hm (Nat.not_lt_zero m),
    fun _ => by rw [h]; exact F.lt_nan_left t⟩

/-- With zero total weight every percentile is NaN, all three scans stop
at index 0, and the estimate is the first sample's rate in all three
fields. -/
theorem estimate_zero_total (l : List FeeRateAndWeight) (hne : l ≠ [])
    (htot : totalWeight l = 0) :
    fee_rate_estimate_from_sorted_weighted_fees l =
      some { high := (l.headD dfltFRW).fee_rate
           , middle := (l.headD dfltFRW).fee_rate
           , low := (l.headD dfltFRW).fee_rate } := by
  have hnpos : 0 < l.length := List.length_pos.mpr hne
  have hnan0 : (psOf l).getD 0 F.nan = F.nan := by
    unfold psOf
    rw [htot]
    exact percentilesOf_getD_zero_total htot 0 hnpos
  have hk1 : kIdx1 l = 0 := advance_zero_of_nan_head t05 hnan0
  have hk2 : kIdx2 l = 0 := by
    unfold kIdx2
    rw [hk1]
    exact advance_zero_of_nan_head t50 hnan0
  have hk3 : kIdx3 l = 0 := by
    unfold kIdx3
    rw [hk2]
    exact advance_zero_of_nan_head t95 hnan0
  rw [estimate_eq_values l hne, hk1, hk2, hk3]
  simp [valueAt]

/-! ## Sortedness-by-rate -/



theorem sorted_q_of_pairwise {l : List FeeRateAndWeight} (hfin : ratesFin l)
    (hs : sortedByRate l) :
    ∀ i j, i ≤ j → j < l.length → qv l i ≤ qv l j := by
  intro i j hij hj
  rcases Nat.eq_or_lt_of_le hij with h | h
  · rw [h]
  · have hi : i < l.length := by omega
    have hR := List.pairwise_iff_getElem.mp hs i j hi hj h
    have hgi : l.getD i dfltFRW = l[i] := List.getD_eq_getElem l dfltFRW hi
    have hgj : l.getD j dfltFRW = l[j] := List.getD_eq_getElem l dfltFRW hj
    have h1 := rate_getD_fin hfin hi
    have h2 := rate_getD_fin hfin hj
    rw [hgi] at h1
    rw [hgj] at h2
    rw [h1, h2] at hR
    simpa using hR

/-! ## The spec-side smallest index agrees with the shared scan -/

theorem specIdx_char (l : List FeeRateAndWeight) (htot : 0 < totalWeight l)
    (tq : ℚ) :
    ScanChar (psOf l) (F.fin tq) (specSmallestIdx (psOf l) (F.fin tq)) := by
  unfold specSmallestIdx
  obtain ⟨h1, h2, h3⟩ := findIdx_char (fun p => F.le (F.fin tq) p) F.nan (psOf l)
  have hlen := length_psOf l
  refine ⟨h1, ?_, ?_⟩
  · intro m hm
    have hmn : m < l.length := by omega
    have := h2 m hm
    rw [psOf_getD_pos l htot hmn] at this ⊢
    simp only [F.le_fin, decide_eq_false_iff_not, not_le] at this
    simp only [F.lt_fin, decide_eq_true_iff]
    exact this
  · intro h
    have hkn : List.findIdx (fun p => F.le (F.fin tq) p) (psOf l) < l.length := by omega
    have := h3 (by omega)
    rw [psOf_getD_pos l htot hkn] at this ⊢
    simp only [F.le_fin, decide_eq_true_iff] at this
    simp only [F.lt_fin, decide_eq_false_iff_not, not_lt]
    exact this

theorem specPercentileValue_eq_valueAt (l : List FeeRateAndWeight) (ps : List F)
    (t : F) :
    specPercentileValue l ps t = valueAt l ps t (specSmallestIdx ps t) := rfl

/-! ## Claim C1 -/

/-- C1 (as stated, refuted): for the two-sample zero-weight list
`[(rate 2, w 0), (rate 3, w 0)]` — non-empty and sorted ascending — the
claim's rule says no index satisfies `p_k ≥ 0.05` (all percentiles are
NaN), so the low estimate should be the *last* sample's rate `3.0`; the
code returns the *first* sample's rate `2.0` (the NaN comparisons stop
the scan at index 0, selecting the `fees_index == 0` branch). -/
theorem c1_counterexample :
    (fee_rate_estimate_from_sorted_weighted_fees
        [⟨F.fin 2, 0⟩, ⟨F.fin 3, 0⟩]).map (fun e => e.low) = some (F.fin 2) ∧
    specPercentileValue [⟨F.fin 2, 0⟩, ⟨F.fin 3, 0⟩]
        (psOf [⟨F.fin 2, 0⟩, ⟨F.fin 3, 0⟩]) t05 = F.fin 3 ∧
    F.fin 2 ≠ F.fin 3 := by
  refine ⟨by with_unfolding_all decide, by with_unfolding_all decide, by decide⟩

/-- C1 (amended: restricted to strictly positive total weight; with zero
total weight all percentiles are NaN and the code returns the first
sample's rate, not the last): for every non-empty list sorted ascending
by fee rate with positive total weight, the code computes the midpoint
percentiles `p_i = (C_i − w_i/2)/W` and returns, for each target
`t ∈ {0.05, 0.5, 0.95}`, the first rate if the smallest `k` with
`p_k ≥ t` is 0, the last rate if no index qualifies, and the standard
linear interpolation otherwise — emitted as low/middle/high. -/
theorem c1_percentile_rule (l : List FeeRateAndWeight) (hne : l ≠ [])
    (_hsorted : sortedByRate l) (htot : 0 < totalWeight l) :
    (∀ i, i < l.length →
      (psOf l).getD i F.nan =
        F.fin (((cumW l i : ℚ) - (wgt l i : ℚ) / 2) / (totalWeight l : ℚ))) ∧
    fee_rate_estimate_from_sorted_weighted_fees l =
      some { high := specPercentileValue l (psOf l) t95
           , middle := specPercentileValue l (psOf l) t50
           , low := specPercentileValue l (psOf l) t05 } := by
  constructor
  · intro i hi
    exact psOf_getD_pos l htot hi
  · rw [estimate_eq_values l hne]
    have e1 : kIdx1 l = specSmallestIdx (psOf l) t05 :=
      scanChar_unique (kIdx1_char l) (specIdx_char l htot (5 / 100))
    have e2 : kIdx2 l = specSmallestIdx (psOf l) t50 :=
      scanChar_unique (kIdx2_char l htot) (specIdx_char l htot (5 / 10))
    have e3 : kIdx3 l = specSmallestIdx (psOf l) t95 :=
      scanChar_unique (kIdx3_char l htot) (specIdx_char l htot (95 / 100))
    rw [specPercentileValue_eq_valueAt, specPercentileValue_eq_valueAt,
      specPercentileValue_eq_valueAt, ← e1, ← e2, ← e3]

/-- Witness for C1's amended theorem at a concrete sorted positive-weight
list. -/
theorem c1_witness :
    fee_rate_estimate_from_sorted_weighted_fees [⟨F.fin 1, 1⟩, ⟨F.fin 5, 1⟩] =
      some { high := specPercentileValue [⟨F.fin 1, 1⟩, ⟨F.fin 5, 1⟩]
                       (psOf [⟨F.fin 1, 1⟩, ⟨F.fin 5, 1⟩]) t95
           , middle := specPercentileValue [⟨F.fin 1, 1⟩, ⟨F.fin 5, 1⟩]
                       (psOf [⟨F.fin 1, 1⟩, ⟨F.fin 5, 1⟩]) t50
           , low := specPercentileValue [⟨F.fin 1, 1⟩, ⟨F.fin 5, 1⟩]
                       (psOf [⟨F.fin 1, 1⟩, ⟨F.fin 5, 1⟩]) t05 } :=
  (c1_percentile_rule [⟨F.fin 1, 1⟩, ⟨F.fin 5, 1⟩] (by decide)
    (by with_unfolding_all decide) (by with_unfolding_all decide)).2

theorem t05_eq : t05 = F.fin (5 / 100 : ℚ) := rfl
theorem t50_eq : t50 = F.fin (5 / 10 : ℚ) := rfl
theorem t95_eq : t95 = F.fin (95 / 100 : ℚ) := rfl

/-! ## Claim C2 -/

/-- C2: for every non-empty list of weighted samples sorted ascending by
fee rate, with all rates finite (hence pairwise comparable), the block
estimate satisfies `low ≤ middle ≤ high`. -/
theorem c2_low_le_middle_le_high (l : List FeeRateAndWeight) (hne : l ≠ [])
    (hfin : ratesFin l) (hsorted : sortedByRate l) :
    ∃ e, fee_rate_estimate_from_sorted_weighted_fees l = some e ∧
      F.le e.low e.middle = true ∧ F.le e.middle e.high = true := by
  by_cases htot : 0 < totalWeight l
  · have hchar1 : ScanChar (psOf l) (F.fin (5 / 100 : ℚ)) (kIdx1 l) := kIdx1_char l
    have hchar2 : ScanChar (psOf l) (F.fin (5 / 10 : ℚ)) (kIdx2 l) := kIdx2_char l htot
    have hchar3 : ScanChar (psOf l) (F.fin (95 / 100 : ℚ)) (kIdx3 l) := kIdx3_char l htot
    have hnpos : 0 < l.length := List.length_pos.mpr hne
    have hsq := sorted_q_of_pairwise hfin hsorted
    have hlen := length_psOf l
    refine ⟨_, estimate_eq_values l hne, ?_, ?_⟩
    · dsimp only
      rw [t05_eq, t50_eq,
        valueAt_eval l hne hfin htot hchar1, valueAt_eval l hne hfin htot hchar2]
      simp only [F.le_fin, decide_eq_true_iff]
      exact valueQ_mono l _ hnpos hsq (by have h := hchar2.1; omega) (kIdx1_le l)
        (by norm_num)
        (fun m hm => char_before_q htot hchar1 hm)
        (fun h => char_stop_q htot hchar1 h)
        (fun m hm => char_before_q htot hchar2 hm)
        (fun h => char_stop_q htot hchar2 h)
    · dsimp only
      rw [t50_eq, t95_eq,
        valueAt_eval l hne hfin htot hchar2, valueAt_eval l hne hfin htot hchar3]
      simp only [F.le_fin, decide_eq_true_iff]
      exact valueQ_mono l _ hnpos hsq (by have h := hchar3.1; omega) (kIdx2_le l)
        (by norm_num)
        (fun m hm => char_before_q htot hchar2 hm)
        (fun h => char_stop_q htot hchar2 h)
        (fun m hm => char_before_q htot hchar3 hm)
        (fun h => char_stop_q htot hchar3 h)
  · have htot0 : totalWeight l = 0 := by omega
    have hh : l.headD dfltFRW ∈ l := by
      cases l with
      | nil => exact absurd rfl hne
      | cons x xs => exact List.mem_cons_self x xs
    obtain ⟨q, hq⟩ := F.isFinite_iff.mp (hfin _ hh)
    rw [estimate_zero_total l hne htot0]
    exact ⟨_, rfl, by rw [hq]; simp, by rw [hq]; simp⟩

/-- Witness for C2 at a concrete sorted list of finite rates. -/
theorem c2_witness :
    ∃ e, fee_rate_estimate_from_sorted_weighted_fees
        [⟨F.fin 2, 1⟩, ⟨F.fin 3, 1⟩] = some e ∧
      F.le e.low e.middle = true ∧ F.le e.middle e.high = true :=
  c2_low_le_middle_le_high [⟨F.fin 2, 1⟩, ⟨F.fin 3, 1⟩] (by decide) (by decide)
    (by with_unfolding_all decide)

/-! ## Claim C3 -/

/-- C3 (as stated, refuted): a non-empty sample list whose weights sum
to zero *does* produce an estimate.  For `[(rate 2, w 0)]` the weighted
percentile computation returns `{low: 2, middle: 2, high: 2}` (not a
no-op), and the same happens through the whole `notify_block` pipeline
when `full_block_weight = 0` (here with a metric returning scalar cost
0 for a fee-5 token transfer, producing `{5, 5, 5}`).  The float
division `0/0` yields NaN rather than trapping, so no panic occurs —
but an estimate *is* emitted. -/
theorem c3_counterexample :
    totalWeight [⟨F.fin 2, 0⟩] = 0 ∧
    fee_rate_estimate_from_sorted_weighted_fees [⟨F.fin 2, 0⟩] =
      some { high := F.fin 2, middle := F.fin 2, low := F.fin 2 } ∧
    notify_block_estimate ⟨fun _ => 0, fun _ _ _ => 0⟩
      [⟨.Stacks ⟨.TokenTransfer, 5, 3⟩, ⟨0, 0, 0, 0, 0⟩⟩] ⟨0, 0, 0, 0, 0⟩ 0 =
      some { high := F.fin 5, middle := F.fin 5, low := F.fin 5 } := by
  refine ⟨by decide, by with_unfolding_all decide, by with_unfolding_all decide⟩

/-- C3 (amended): with zero total weight no division-by-zero trap or
panic occurs, but the code has no zero-total-weight guard: the
percentiles all evaluate to NaN (`0/0`), every scan comparison is false,
and the emitted estimate is the first sample's fee rate in all three
fields. -/
theorem c3_zero_total_amended (l : List FeeRateAndWeight) (hne : l ≠ [])
    (htot : totalWeight l = 0) :
    fee_rate_estimate_from_sorted_weighted_fees l =
      some { high := (l.headD dfltFRW).fee_rate
           , middle := (l.headD dfltFRW).fee_rate
           , low := (l.headD dfltFRW).fee_rate } :=
  estimate_zero_total l hne htot

/-- Witness for C3's amended theorem. -/
theorem c3_witness :
    fee_rate_estimate_from_sorted_weighted_fees [⟨F.fin 7, 0⟩] =
      some { high := F.fin 7, middle := F.fin 7, low := F.fin 7 } := by
  have h := c3_zero_total_amended [⟨F.fin 7, 0⟩] (by decide) (by decide)
  simpa using h

/-! ## Claim C10 -/

/-- C10: with strictly positive total weight, whenever the interpolation
branch is reachable for one of the three targets (its scan index `k`
satisfies `0 < k < n`), the shared ascending-target scan guarantees
`p[k−1] < t ≤ p[k]`, so the interpolation divisor `p[k] − p[k−1]` is
strictly positive (no division by zero) and every index used is in
bounds (`k ≤ n` always). -/
theorem c10_interp_divisor_pos (l : List FeeRateAndWeight)
    (htot : 0 < totalWeight l) :
    (kIdx1 l ≤ l.length ∧ kIdx2 l ≤ l.length ∧ kIdx3 l ≤ l.length) ∧
    (0 < kIdx1 l → kIdx1 l < l.length →
      qpOf l (totalWeight l) (kIdx1 l - 1) < 5 / 100 ∧
      (5 / 100 : ℚ) ≤ qpOf l (totalWeight l) (kIdx1 l) ∧
      0 < qpOf l (totalWeight l) (kIdx1 l) - qpOf l (totalWeight l) (kIdx1 l - 1)) ∧
    (0 < kIdx2 l → kIdx2 l < l.length →
      qpOf l (totalWeight l) (kIdx2 l - 1) < 5 / 10 ∧
      (5 / 10 : ℚ) ≤ qpOf l (totalWeight l) (kIdx2 l) ∧
      0 < qpOf l (totalWeight l) (kIdx2 l) - qpOf l (totalWeight l) (kIdx2 l - 1)) ∧
    (0 < kIdx3 l → kIdx3 l < l.length →
      qpOf l (totalWeight l) (kIdx3 l - 1) < 95 / 100 ∧
      (95 / 100 : ℚ) ≤ qpOf l (totalWeight l) (kIdx3 l) ∧
      0 < qpOf l (totalWeight l) (kIdx3 l) - qpOf l (totalWeight l) (kIdx3 l - 1)) := by
  have hchar1 : ScanChar (psOf l) (F.fin (5 / 100 : ℚ)) (kIdx1 l) := kIdx1_char l
  have hchar2 : ScanChar (psOf l) (F.fin (5 / 10 : ℚ)) (kIdx2 l) := kIdx2_char l htot
  have hchar3 : ScanChar (psOf l) (F.fin (95 / 100 : ℚ)) (kIdx3 l) := kIdx3_char l htot
  have hlen := length_psOf l
  refine ⟨⟨?_, ?_, ?_⟩, ?_, ?_, ?_⟩
  · have h := hchar1.1; omega
  · have h := hchar2.1; omega
  · have h := hchar3.1; omega
  · intro hk0 hkn
    have hb := char_before_q htot hchar1 (show kIdx1 l - 1 < kIdx1 l by omega)
    have hs := char_stop_q htot hchar1 hkn
    exact ⟨hb, hs, by linarith⟩
  · intro hk0 hkn
    have hb := char_before_q htot hchar2 (show kIdx2 l - 1 < kIdx2 l by omega)
    have hs := char_stop_q htot hchar2 hkn
    exact ⟨hb, hs, by linarith⟩
  · intro hk0 hkn
    have hb := char_before_q htot hchar3 (show kIdx3 l - 1 < kIdx3 l by omega)
    have hs := char_stop_q htot hchar3 hkn
    exact ⟨hb, hs, by linarith⟩

/-- Witness for C10 at a list where the 0.5-target interpolation branch
is actually reached. -/
theorem c10_witness :
    (kIdx1 [⟨F.fin 1, 1⟩, ⟨F.fin 5, 1⟩] ≤ 2 ∧ kIdx2 [⟨F.fin 1, 1⟩, ⟨F.fin 5, 1⟩] ≤ 2 ∧
      kIdx3 [⟨F.fin 1, 1⟩, ⟨F.fin 5, 1⟩] ≤ 2) ∧
    (0 < kIdx1 [⟨F.fin 1, 1⟩, ⟨F.fin 5, 1⟩] → kIdx1 [⟨F.fin 1, 1⟩, ⟨F.fin 5, 1⟩] < 2 →
      qpOf [⟨F.fin 1, 1⟩, ⟨F.fin 5, 1⟩] (totalWeight [⟨F.fin 1, 1⟩, ⟨F.fin 5, 1⟩])
          (kIdx1 [⟨F.fin 1, 1⟩, ⟨F.fin 5, 1⟩] - 1) < 5 / 100 ∧
      (5 / 100 : ℚ) ≤ qpOf [⟨F.fin 1, 1⟩, ⟨F.fin 5, 1⟩]
          (totalWeight [⟨F.fin 1, 1⟩, ⟨F.fin 5, 1⟩]) (kIdx1 [⟨F.fin 1, 1⟩, ⟨F.fin 5, 1⟩]) ∧
      0 < qpOf [⟨F.fin 1, 1⟩, ⟨F.fin 5, 1⟩] (totalWeight [⟨F.fin 1, 1⟩, ⟨F.fin 5, 1⟩])
          (kIdx1 [⟨F.fin 1, 1⟩, ⟨F.fin 5, 1⟩]) -
        qpOf [⟨F.fin 1, 1⟩, ⟨F.fin 5, 1⟩] (totalWeight [⟨F.fin 1, 1⟩, ⟨F.fin 5, 1⟩])
          (kIdx1 [⟨F.fin 1, 1⟩, ⟨F.fin 5, 1⟩] - 1)) ∧
    (0 < kIdx2 [⟨F.fin 1, 1⟩, ⟨F.fin 5, 1⟩] → kIdx2 [⟨F.fin 1, 1⟩, ⟨F.fin 5, 1⟩] < 2 →
      qpOf [⟨F.fin 1, 1⟩, ⟨F.fin 5, 1⟩] (totalWeight [⟨F.fin 1, 1⟩, ⟨F.fin 5, 1⟩])
          (kIdx2 [⟨F.fin 1, 1⟩, ⟨F.fin 5, 1⟩] - 1) < 5 / 10 ∧
      (5 / 10 : ℚ) ≤ qpOf [⟨F.fin 1, 1⟩, ⟨F.fin 5, 1⟩]
          (totalWeight [⟨F.fin 1, 1⟩, ⟨F.fin 5, 1⟩]) (kIdx2 [⟨F.fin 1, 1⟩, ⟨F.fin 5, 1⟩]) ∧
      0 < qpOf [⟨F.fin 1, 1⟩, ⟨F.fin 5, 1⟩] (totalWeight [⟨F.fin 1, 1⟩, ⟨F.fin 5, 1⟩])
          (kIdx2 [⟨F.fin 1, 1⟩, ⟨F.fin 5, 1⟩]) -
        qpOf [⟨F.fin 1, 1⟩, ⟨F.fin 5, 1⟩] (totalWeight [⟨F.fin 1, 1⟩, ⟨F.fin 5, 1⟩])
          (kIdx2 [⟨F.fin 1, 1⟩, ⟨F.fin 5, 1⟩] - 1)) ∧
    (0 < kIdx3 [⟨F.fin 1, 1⟩, ⟨F.fin 5, 1⟩] → kIdx3 [⟨F.fin 1, 1⟩, ⟨F.fin 5, 1⟩] < 2 →
      qpOf [⟨F.fin 1, 1⟩, ⟨F.fin 5, 1⟩] (totalWeight [⟨F.fin 1, 1⟩, ⟨F.fin 5, 1⟩])
          (kIdx3 [⟨F.fin 1, 1⟩, ⟨F.fin 5, 1⟩] - 1) < 95 / 100 ∧
      (95 / 100 : ℚ) ≤ qpOf [⟨F.fin 1, 1⟩, ⟨F.fin 5, 1⟩]
          (totalWeight [⟨F.fin 1, 1⟩, ⟨F.fin 5, 1⟩]) (kIdx3 [⟨F.fin 1, 1⟩, ⟨F.fin 5, 1⟩]) ∧
      0 < qpOf [⟨F.fin 1, 1⟩, ⟨F.fin 5, 1⟩] (totalWeight [⟨F.fin 1, 1⟩, ⟨F.fin 5, 1⟩])
          (kIdx3 [⟨F.fin 1, 1⟩, ⟨F.fin 5, 1⟩]) -
        qpOf [⟨F.fin 1, 1⟩, ⟨F.fin 5, 1⟩] (totalWeight [⟨F.fin 1, 1⟩, ⟨F.fin 5, 1⟩])
          (kIdx3 [⟨F.fin 1, 1⟩, ⟨F.fin 5, 1⟩] - 1)) :=
  c10_interp_divisor_pos [⟨F.fin 1, 1⟩, ⟨F.fin 5, 1⟩] (by decide)

/-! ## Claim C5 -/

/-- C5: if the samples' total weight is strictly below
`full_block_weight`, exactly one synthetic sample with rate `1.0` and
weight `full_block_weight − total` is appended; otherwise the list is
unchanged.  (`full_block_weight` itself is `6 × PROPORTION_RESOLUTION`,
the cost metric's resolution constant.) -/
theorem c5_filler_synthesis (working : List FeeRateAndWeight) (fbw : ℕ) :
    ((working.map (·.weight)).sum < fbw →
      maybe_add_minimum_fee_rate working fbw =
        working ++
          [{ fee_rate := F.fin 1, weight := fbw - (working.map (·.weight)).sum }]) ∧
    (¬ (working.map (·.weight)).sum < fbw →
      maybe_add_minimum_fee_rate working fbw = working) ∧
    (∀ resolution : ℕ, full_block_weight resolution = 6 * resolution) := by
  refine ⟨?_, ?_, fun _ => rfl⟩
  · intro h
    unfold maybe_add_minimum_fee_rate
    rw [totalWeight_eq_sum, if_pos h]
  · intro h
    unfold maybe_add_minimum_fee_rate
    rw [totalWeight_eq_sum, if_neg h]

/-- Witness for C5 (filler branch) at a concrete under-full block. -/
theorem c5_witness :
    maybe_add_minimum_fee_rate [⟨F.fin 2, 3⟩] 10 =
      [⟨F.fin 2, 3⟩] ++ [{ fee_rate := F.fin 1, weight := 7 }] := by
  have h := (c5_filler_synthesis [⟨F.fin 2, 3⟩] 10).1 (by decide)
  simpa using h

/-! ## Claim C6 -/

theorem mk_rate_and_weight_eq (fee scalar : ℕ) :
    fee_rate_and_weight_from_receipt.mk_rate_and_weight fee scalar =
      some { fee_rate := if 1 ≤ (fee : ℚ) / ((max scalar 1 : ℕ) : ℚ)
                         then F.fin ((fee : ℚ) / ((max scalar 1 : ℕ) : ℚ))
                         else F.fin 1
           , weight := scalar } := by
  unfold fee_rate_and_weight_from_receipt.mk_rate_and_weight
  by_cases h : 1 ≤ scalar
  · have hmax : max scalar 1 = scalar := by omega
    have hge : scalar ≥ 1 := h
    rw [if_pos hge, hmax]
    have hs : ((scalar : ℚ)) ≠ 0 := by
      have : (0 : ℚ) < (scalar : ℚ) := by exact_mod_cast h
      linarith
    simp only [natToF, F.div_fin _ hs, F.le_fin, F.isFinite, and_true,
      decide_eq_true_iff]
    split_ifs with h1 <;> rfl
  · have h0 : scalar = 0 := by omega
    subst h0
    rw [if_neg (by omega : ¬ (0 ≥ 1))]
    have h1 : ((max 0 1 : ℕ) : ℚ) = 1 := by norm_num
    have hone : (1 : ℚ) ≠ 0 := one_ne_zero
    rw [h1]
    simp only [natToF, Nat.cast_zero, F.div_fin _ hone, F.le_fin, F.isFinite,
      and_true, decide_eq_true_iff]
    split_ifs with h1 <;> rfl

/-- C6: for every eligible transaction receipt (Stacks-originated,
non-coinbase payload), the produced sample's rate is
`fee_paid / max(scalar_cost, 1)` when that quotient is `≥ 1.0` (it is
always finite here), and `1.0` otherwise; the weight is the original
scalar cost in both cases. -/
theorem c6_fee_rate_clamp (metric : CostMetric) (r : StacksTransactionReceipt)
    (block_limit : ExecutionCost) (tx : StacksTransaction)
    (horig : r.transaction = .Stacks tx) (hpay : tx.payload ≠ .Coinbase) :
    ∃ scalar : ℕ,
      (scalar = match tx.payload with
        | .TokenTransfer => metric.from_len tx.tx_len
        | _ => metric.from_cost_and_len r.execution_cost block_limit tx.tx_len) ∧
      fee_rate_and_weight_from_receipt metric r block_limit =
        some { fee_rate := if 1 ≤ (tx.fee : ℚ) / ((max scalar 1 : ℕ) : ℚ)
                           then F.fin ((tx.fee : ℚ) / ((max scalar 1 : ℕ) : ℚ))
                           else F.fin 1
             , weight := scalar } := by
  obtain ⟨payload, fee, tx_len⟩ := tx
  unfold fee_rate_and_weight_from_receipt
  rw [horig]
  cases payload with
  | Coinbase => exact absurd rfl hpay
  | TokenTransfer => exact ⟨_, rfl, by dsimp only; rw [mk_rate_and_weight_eq]⟩
  | PoisonMicroblock => exact ⟨_, rfl, by dsimp only; rw [mk_rate_and_weight_eq]⟩
  | ContractCall => exact ⟨_, rfl, by dsimp only; rw [mk_rate_and_weight_eq]⟩
  | SmartContract => exact ⟨_, rfl, by dsimp only; rw [mk_rate_and_weight_eq]⟩

/-- Witness for C6: a fee-10, length-20 token transfer under the
identity length metric has quotient `1/2 < 1`, so the rate is clamped to
`1.0` while the weight stays 20. -/
theorem c6_witness :
    ∃ scalar : ℕ,
      (scalar = match (StacksTransaction.mk .TokenTransfer 10 20).payload with
        | .TokenTransfer => (CostMetric.mk (fun l => l) (fun _ _ l => l)).from_len 20
        | _ => (CostMetric.mk (fun l => l) (fun _ _ l => l)).from_cost_and_len
                 ⟨0, 0, 0, 0, 0⟩ ⟨1, 1, 1, 1, 1⟩ 20) ∧
      fee_rate_and_weight_from_receipt (CostMetric.mk (fun l => l) (fun _ _ l => l))
          ⟨.Stacks ⟨.TokenTransfer, 10, 20⟩, ⟨0, 0, 0, 0, 0⟩⟩ ⟨1, 1, 1, 1, 1⟩ =
        some { fee_rate := if 1 ≤ ((10 : ℕ) : ℚ) / ((max scalar 1 : ℕ) : ℚ)
                           then F.fin (((10 : ℕ) : ℚ) / ((max scalar 1 : ℕ) : ℚ))
                           else F.fin 1
             , weight := scalar } :=
  c6_fee_rate_clamp (CostMetric.mk (fun l => l) (fun _ _ l => l))
    ⟨.Stacks ⟨.TokenTransfer, 10, 20⟩, ⟨0, 0, 0, 0, 0⟩⟩ ⟨1, 1, 1, 1, 1⟩
    ⟨.TokenTransfer, 10, 20⟩ rfl (by decide)

/-! ## Claim C9 -/



theorem ratesFin_of_finGeOne {l : List FeeRateAndWeight} (h : ratesFinGeOne l) :
    ratesFin l := by
  intro x hx
  obtain ⟨q, hq, _⟩ := h x hx
  rw [hq]
  rfl

theorem qv_ge_one_of_finGeOne {l : List FeeRateAndWeight} (h : ratesFinGeOne l)
    {i : ℕ} (hi : i < l.length) : 1 ≤ qv l i := by
  obtain ⟨q, hq, hq1⟩ := h _ (getD_mem_of_lt hi dfltFRW)
  unfold qv
  rw [hq]
  exact hq1

theorem mk_rate_and_weight_finGeOne (fee scalar : ℕ) {x : FeeRateAndWeight}
    (h : fee_rate_and_weight_from_receipt.mk_rate_and_weight fee scalar = some x) :
    ∃ q, x.fee_rate = F.fin q ∧ 1 ≤ q := by
  rw [mk_rate_and_weight_eq] at h
  by_cases hq : 1 ≤ (fee : ℚ) / ((max scalar 1 : ℕ) : ℚ)
  · rw [if_pos hq] at h
    obtain rfl := (Option.some_injective _ h).symm
    exact ⟨_, rfl, hq⟩
  · rw [if_neg hq] at h
    obtain rfl := (Option.some_injective _ h).symm
    exact ⟨1, rfl, le_refl 1⟩

theorem receipt_rate_finGeOne (metric : CostMetric) (r : StacksTransactionReceipt)
    (block_limit : ExecutionCost) {x : FeeRateAndWeight}
    (h : fee_rate_and_weight_from_receipt metric r block_limit = some x) :
    ∃ q, x.fee_rate = F.fin q ∧ 1 ≤ q := by
  unfold fee_rate_and_weight_from_receipt at h
  rcases htr : r.transaction with tx | _
  · rw [htr] at h
    obtain ⟨payload, fee, tx_len⟩ := tx
    cases payload with
    | Coinbase => simp at h
    | TokenTransfer => exact mk_rate_and_weight_finGeOne _ _ h
    | PoisonMicroblock => exact mk_rate_and_weight_finGeOne _ _ h
    | ContractCall => exact mk_rate_and_weight_finGeOne _ _ h
    | SmartContract => exact mk_rate_and_weight_finGeOne _ _ h
  · rw [htr] at h
    simp at h

theorem working_rates_finGeOne (metric : CostMetric)
    (tx_receipts : List StacksTransactionReceipt) (block_limit : ExecutionCost)
    (fbw : ℕ) :
    ratesFinGeOne
      (maybe_add_minimum_fee_rate
        (tx_receipts.filterMap
          (fun r => fee_rate_and_weight_from_receipt metric r block_limit)) fbw) := by
  intro x hx
  simp only [maybe_add_minimum_fee_rate] at hx
  have hbase : ∀ y ∈ tx_receipts.filterMap
      (fun r => fee_rate_and_weight_from_receipt metric r block_limit),
      ∃ q, y.fee_rate = F.fin q ∧ 1 ≤ q := by
    intro y hy
    obtain ⟨r, _, hr⟩ := List.mem_filterMap.mp hy
    exact receipt_rate_finGeOne metric r block_limit hr
  split_ifs at hx with hcond
  · rcases List.mem_append.mp hx with h | h
    · exact hbase x h
    · have : x = { fee_rate := F.fin 1
                 , weight := fbw - totalWeight (tx_receipts.filterMap
                     (fun r => fee_rate_and_weight_from_receipt metric r block_limit)) } := by
        simpa using h
      rw [this]
      exact ⟨1, rfl, le_refl 1⟩
  · exact hbase x hx

theorem sortSamples_finGeOne {l : List FeeRateAndWeight} (h : ratesFinGeOne l) :
    ratesFinGeOne (sortSamples l) := by
  intro x hx
  exact h x ((List.perm_insertionSort _ l).mem_iff.mp hx)

theorem sortSamples_ne_nil {l : List FeeRateAndWeight} (h : 0 < l.length) :
    sortSamples l ≠ [] := by
  intro hnil
  unfold sortSamples at hnil
  have := (List.perm_insertionSort
    (fun a b => F.sortLe a.fee_rate b.fee_rate) l).length_eq
  rw [hnil] at this
  simp at this
  omega

/-- Core bound: on any non-empty list whose rates are all finite and
`≥ 1`, each field of the computed estimate is a finite rational `≥ 1`. -/
theorem estimate_fields_ge_one (l : List FeeRateAndWeight) (hne : l ≠ [])
    (hge : ratesFinGeOne l) :
    ∃ e, fee_rate_estimate_from_sorted_weighted_fees l = some e ∧
      (∃ q, e.high = F.fin q ∧ 1 ≤ q) ∧
      (∃ q, e.middle = F.fin q ∧ 1 ≤ q) ∧
      (∃ q, e.low = F.fin q ∧ 1 ≤ q) := by
  have hfin := ratesFin_of_finGeOne hge
  have hnpos : 0 < l.length := List.length_pos.mpr hne
  have hB : ∀ i, i < l.length → (1 : ℚ) ≤ qv l i :=
    fun i hi => qv_ge_one_of_finGeOne hge hi
  by_cases htot : 0 < totalWeight l
  · have hchar1 : ScanChar (psOf l) (F.fin (5 / 100 : ℚ)) (kIdx1 l) := kIdx1_char l
    have hchar2 : ScanChar (psOf l) (F.fin (5 / 10 : ℚ)) (kIdx2 l) := kIdx2_char l htot
    have hchar3 : ScanChar (psOf l) (F.fin (95 / 100 : ℚ)) (kIdx3 l) := kIdx3_char l htot
    have hlen := length_psOf l
    refine ⟨_, estimate_eq_values l hne, ?_, ?_, ?_⟩
    · dsimp only
      rw [t95_eq, valueAt_eval l hne hfin htot hchar3]
      refine ⟨_, rfl, ?_⟩
      exact valueQ_ge l _ hnpos hB (by have h := hchar3.1; omega)
        (fun m hm => char_before_q htot hchar3 hm)
        (fun h => char_stop_q htot hchar3 h)
    · dsimp only
      rw [t50_eq, valueAt_eval l hne hfin htot hchar2]
      refine ⟨_, rfl, ?_⟩
      exact valueQ_ge l _ hnpos hB (by have h := hchar2.1; omega)
        (fun m hm => char_before_q htot hchar2 hm)
        (fun h => char_stop_q htot hchar2 h)
    · dsimp only
      rw [t05_eq, valueAt_eval l hne hfin htot hchar1]
      refine ⟨_, rfl, ?_⟩
      exact valueQ_ge l _ hnpos hB (by have h := hchar1.1; omega)
        (fun m hm => char_before_q htot hchar1 hm)
        (fun h => char_stop_q htot hchar1 h)
  · have htot0 : totalWeight l = 0 := by omega
    rw [estimate_zero_total l hne htot0]
    have hh : l.headD dfltFRW ∈ l := by
      cases l with
      | nil => exact absurd rfl hne
      | cons x xs => exact List.mem_cons_self x xs
    obtain ⟨q, hq, hq1⟩ := hge _ hh
    exact ⟨_, rfl, ⟨q, hq, hq1⟩, ⟨q, hq, hq1⟩, ⟨q, hq, hq1⟩⟩

/-- C9: every block estimate emitted by the `notify_block` pipeline has
all three fields finite and `≥ 1.0`: per-transaction samples are clamped
to finite rates `≥ 1.0`, the synthetic filler has rate exactly `1.0`,
and each percentile output is either a sample's rate or an interpolation
between two adjacent sample rates. -/
theorem c9_emitted_estimate_ge_one (metric : CostMetric)
    (tx_receipts : List StacksTransactionReceipt) (block_limit : ExecutionCost)
    (fbw : ℕ) (e : FeeRateEstimate)
    (h : notify_block_estimate metric tx_receipts block_limit fbw = some e) :
    (∃ q, e.high = F.fin q ∧ 1 ≤ q) ∧
    (∃ q, e.middle = F.fin q ∧ 1 ≤ q) ∧
    (∃ q, e.low = F.fin q ∧ 1 ≤ q) := by
  unfold notify_block_estimate at h
  by_cases hlen : 0 < (maybe_add_minimum_fee_rate
      (tx_receipts.filterMap
        (fun r => fee_rate_and_weight_from_receipt metric r block_limit)) fbw).length
  · rw [if_pos hlen] at h
    obtain ⟨e', he', hh, hm, hl⟩ :=
      estimate_fields_ge_one _
        (sortSamples_ne_nil hlen)
        (sortSamples_finGeOne (working_rates_finGeOne metric tx_receipts block_limit fbw))
    rw [he'] at h
    obtain rfl := Option.some_injective _ h
    exact ⟨hh, hm, hl⟩
  · rw [if_neg hlen] at h
    simp at h

/-- Witness for C9 at a concrete one-transaction block with filler. -/
theorem c9_witness :
    (∃ q, (FeeRateEstimate.mk (F.fin 5) (F.fin (5 / 3)) (F.fin 1)).high = F.fin q ∧ 1 ≤ q) ∧
    (∃ q, (FeeRateEstimate.mk (F.fin 5) (F.fin (5 / 3)) (F.fin 1)).middle = F.fin q ∧ 1 ≤ q) ∧
    (∃ q, (FeeRateEstimate.mk (F.fin 5) (F.fin (5 / 3)) (F.fin 1)).low = F.fin q ∧ 1 ≤ q) :=
  c9_emitted_estimate_ge_one ⟨fun l => l, fun _ _ l => l⟩
    [⟨.Stacks ⟨.TokenTransfer, 10, 2⟩, ⟨0, 0, 0, 0, 0⟩⟩] ⟨0, 0, 0, 0, 0⟩ 12
    (FeeRateEstimate.mk (F.fin 5) (F.fin (5 / 3)) (F.fin 1))
    (by with_unfolding_all decide)

/-! ## Claim C4: window retention -/

theorem foldl_max_le {B : ℕ} : ∀ (l : List ℕ) (a : ℕ), a ≤ B → (∀ x ∈ l, x ≤ B) →
    l.foldl max a ≤ B := by
  intro l
  induction l with
  | nil => intro a ha _; exact ha
  | cons x xs ih =>
    intro a ha h
    exact ih (max a x) (by
      have := h x (List.mem_cons_self x xs)
      omega) (fun y hy => h y (List.mem_cons_of_mem x hy))

theorem le_foldl_max : ∀ (l : List ℕ) (a : ℕ), a ≤ l.foldl max a := by
  intro l
  induction l with
  | nil => intro a; exact le_refl a
  | cons x xs ih =>
    intro a
    exact le_trans (Nat.le_max_left a x) (ih (max a x))

theorem mem_le_foldl_max : ∀ (l : List ℕ) {x : ℕ}, x ∈ l → ∀ a, x ≤ l.foldl max a := by
  intro l
  induction l with
  | nil => intro x hx; exact absurd hx (List.not_mem_nil x)
  | cons y ys ih =>
    intro x hx a
    rcases List.mem_cons.mp hx with h | h
    · subst h
      exact le_trans (Nat.le_max_right a x) (le_foldl_max ys (max a x))
    · exact ih h (max a y)

theorem maxKey_eq {rows : List (ℕ × FeeRateEstimate)} {K : ℕ}
    (hmem : K ∈ rows.map Prod.fst) (hub : ∀ j ∈ rows.map Prod.fst, j ≤ K) :
    maxKey rows = K :=
  le_antisymm (foldl_max_le _ 0 (Nat.zero_le K) hub)
    (mem_le_foldl_max _ hmem 0)

theorem map_filter_comm {α β : Type _} (f : α → β) (p : β → Bool) :
    ∀ l : List α, (l.map f).filter p = (l.filter (fun a => p (f a))).map f := by
  intro l
  induction l with
  | nil => rfl
  | cons x xs ih =>
    simp only [List.map_cons, List.filter_cons]
    by_cases h : p (f x) = true
    · rw [if_pos h, if_pos h, List.map_cons, ih]
    · rw [if_neg h, if_neg h, ih]

theorem range'_filter_ge : ∀ (len s c : ℕ),
    (List.range' s len).filter (fun j => decide (c ≤ j)) =
      if c ≤ s then List.range' s len else List.range' c (s + len - c) := by
  intro len
  induction len with
  | zero =>
    intro s c
    by_cases h : c ≤ s
    · simp [List.range', h]
    · have h0 : s - c = 0 := by omega
      simp [List.range', h, h0]
  | succ len ih =>
    intro s c
    have hr : List.range' s (len + 1) = s :: List.range' (s + 1) len := by
      simp [List.range']
    rw [hr, List.filter_cons]
    by_cases h : c ≤ s
    · rw [if_pos (by simpa using h), ih (s + 1) c, if_pos (by omega), if_pos h, ← hr]
    · rw [if_neg (by simpa using h), ih (s + 1) c, if_neg h]
      by_cases h2 : c ≤ s + 1
      · have hc : c = s + 1 := by omega
        rw [if_pos h2, hc]
        congr 1
        omega
      · rw [if_neg h2]
        congr 1
        omega



theorem length_expectedRows (f : ℕ → FeeRateEstimate) (w n : ℕ) :
    (expectedRows f w n).length = min n w := by
  unfold expectedRows
  rw [List.length_map]
  have hp : (fun j : ℕ => decide (n < j + w)) = (fun j : ℕ => decide (n + 1 - w ≤ j)) := by
    funext j
    by_cases h : n < j + w
    · have h2 : n + 1 - w ≤ j := by omega
      simp [h, h2]
    · have h2 : ¬ (n + 1 - w ≤ j) := by omega
      simp [h, h2]
  rw [hp, range'_filter_ge n 1 (n + 1 - w)]
  by_cases h : n + 1 - w ≤ 1
  · rw [if_pos h, List.length_range']
    omega
  · rw [if_neg h, List.length_range']
    omega

theorem expectedRows_keys_le (f : ℕ → FeeRateEstimate) (w n : ℕ) :
    ∀ j ∈ (expectedRows f w n).map Prod.fst, j ≤ n := by
  intro j hj
  unfold expectedRows at hj
  rw [List.map_map] at hj
  obtain ⟨a, ha, haj⟩ := List.mem_map.mp hj
  have ha2 : a ∈ List.range' 1 n := List.mem_of_mem_filter ha
  have := List.mem_range'_1.mp ha2
  simp only [Function.comp] at haj
  omega

theorem recordSeq_invariant (f : ℕ → FeeRateEstimate) (w : ℕ) :
    ∀ n, (recordSeq f w n).rows = expectedRows f w n ∧
      (recordSeq f w n).next_key = n + 1 := by
  intro n
  induction n with
  | zero => exact ⟨rfl, rfl⟩
  | succ n ih =>
    obtain ⟨hrows, hkey⟩ := ih
    have hstep : recordSeq f w (n + 1) =
        update_estimate (recordSeq f w n) w (f n) := rfl
    constructor
    · rw [hstep]
      simp only [update_estimate, hrows, hkey]
      have hmax : maxKey (expectedRows f w n ++ [(n + 1, f n)]) = n + 1 := by
        apply maxKey_eq
        · simp
        · intro j hj
          rw [List.map_append, List.mem_append] at hj
          rcases hj with hj | hj
          · have := expectedRows_keys_le f w n j hj
            omega
          · simp at hj
            omega
      rw [hmax, List.filter_append]
      have hfirst : (expectedRows f w n).filter
          (fun p => !decide ((p.1 : ℤ) ≤ ((n + 1 : ℕ) : ℤ) - (w : ℤ))) =
          ((List.range' 1 n).filter (fun j => decide (n + 1 < j + w))).map
            (fun j => (j, f (j - 1))) := by
        unfold expectedRows
        rw [map_filter_comm, List.filter_filter]
        congr 1
        apply List.filter_congr
        intro j hj
        simp only
        by_cases h : n + 1 < j + w
        · have h1 : n < j + w := by omega
          have h2 : ¬ ((j : ℤ) ≤ ((n + 1 : ℕ) : ℤ) - (w : ℤ)) := by
            push_cast
            omega
          simp [h, h1, h2]
          omega
        · by_cases h1 : n < j + w
          · have h2 : (j : ℤ) ≤ ((n + 1 : ℕ) : ℤ) - (w : ℤ) := by
              push_cast
              omega
            simp [h, h1, h2]
            omega
          · simp [h, h1]
      have hsecond : ([((n + 1 : ℕ), f n)]).filter
          (fun p => !decide ((p.1 : ℤ) ≤ ((n + 1 : ℕ) : ℤ) - (w : ℤ))) =
          (([(n + 1 : ℕ)].filter (fun j => decide (n + 1 < j + w))).map
            (fun j => (j, f (j - 1)))) := by
        by_cases h : 0 < w
        · have h1 : ¬ (((n + 1 : ℕ) : ℤ) ≤ ((n + 1 : ℕ) : ℤ) - (w : ℤ)) := by
            push_cast
            omega
          have h2 : n + 1 < n + 1 + w := by omega
          simp [List.filter_cons, h1, h2]
          omega
        · have h0 : w = 0 := by omega
          subst h0
          have h1 : ((n + 1 : ℕ) : ℤ) ≤ ((n + 1 : ℕ) : ℤ) - (0 : ℤ) := by
            push_cast
            omega
          have h2 : ¬ (n + 1 < n + 1 + 0) := by omega
          simp [List.filter_cons, h1, h2]
      rw [hfirst, hsecond]
      unfold expectedRows
      have hconcat : List.range' 1 (n + 1) = List.range' 1 n ++ [n + 1] := by
        have := @List.range'_concat 1 1 n
        simpa [Nat.add_comm] using this
      rw [hconcat, List.filter_append, List.map_append]
    · rw [hstep]
      simp only [update_estimate, hkey]

/-- C4: starting from an empty store, after `window_size + k` records
exactly `window_size` rows remain; after `n ≤ window_size` records all
`n` rows remain (the relative cutoff deletes nothing when the table is
not yet full — no underflow, since SQLite evaluates
`MAX(measure_key) − window_size` in signed 64-bit arithmetic); and each
record deletes precisely the rows whose `measure_key` is at or below the
post-insert maximum key minus `window_size`. -/
theorem c4_window_retention (f : ℕ → FeeRateEstimate) (w k : ℕ) (_hw : 1 ≤ w) :
    (recordSeq f w (w + k)).rows.length = w ∧
    (∀ n, n ≤ w → (recordSeq f w n).rows.length = n) ∧
    (∀ (s : EstimatorState) (m : FeeRateEstimate),
      (update_estimate s w m).rows =
        (s.rows ++ [(s.next_key, m)]).filter
          (fun p => !((p.1 : ℤ) ≤ (maxKey (s.rows ++ [(s.next_key, m)]) : ℤ) - (w : ℤ)))) := by
  refine ⟨?_, ?_, fun s m => rfl⟩
  · rw [(recordSeq_invariant f w (w + k)).1, length_expectedRows]
    omega
  · intro n hn
    rw [(recordSeq_invariant f w n).1, length_expectedRows]
    omega

/-- Witness for C4 at the boundary window size `w = 1` with `k = 2`. -/
theorem c4_witness :
    (recordSeq (fun i => ⟨F.fin i, F.fin i, F.fin i⟩) 1 (1 + 2)).rows.length = 1 ∧
    (∀ n, n ≤ 1 →
      (recordSeq (fun i => ⟨F.fin i, F.fin i, F.fin i⟩) 1 n).rows.length = n) ∧
    (∀ (s : EstimatorState) (m : FeeRateEstimate),
      (update_estimate s 1 m).rows =
        (s.rows ++ [(s.next_key, m)]).filter
          (fun p => !((p.1 : ℤ) ≤ (maxKey (s.rows ++ [(s.next_key, m)]) : ℤ) - (1 : ℤ)))) :=
  c4_window_retention (fun i => ⟨F.fin i, F.fin i, F.fin i⟩) 1 2 (by decide)

/-! ## Claim C7 -/

theorem selectWindow_empty_iff (s : EstimatorState) (window_size : ℕ) :
    selectWindow s window_size = [] ↔ (s.rows = [] ∨ window_size = 0) := by
  unfold selectWindow
  constructor
  · intro h
    rcases List.map_eq_nil_iff.mp h |> List.take_eq_nil_iff.mp with h1 | h1
    · right; exact h1
    · left
      have := List.reverse_eq_nil_iff.mp h1
      exact this
  · intro h
    rcases h with h | h
    · simp [h]
    · simp [h]

/-- C7: the read path fails with `NoEstimateAvailable` iff zero rows are
retained in the window (equivalently: the table is empty or the window
size is zero); otherwise it returns, independently for each of the
high/middle/low columns over the up-to-`window_size` most recent rows,
the median of the column sorted with the incomparable-as-equal
comparator — middle element for odd length, mean of the two central
elements for even length. -/
theorem c7_read_estimate (s : EstimatorState) (window_size : ℕ) :
    (get_rate_estimates_from_sql s window_size =
        .error .NoEstimateAvailable ↔ selectWindow s window_size = []) ∧
    (selectWindow s window_size = [] ↔ (s.rows = [] ∨ window_size = 0)) ∧
    (selectWindow s window_size ≠ [] →
      get_rate_estimates_from_sql s window_size =
        .ok { high := medianF (sortColumn ((selectWindow s window_size).map (·.high)))
            , middle := medianF (sortColumn ((selectWindow s window_size).map (·.middle)))
            , low := medianF (sortColumn ((selectWindow s window_size).map (·.low))) }) := by
  have hcond : (((selectWindow s window_size).map (fun r => r.high)).isEmpty = true ∨
      ((selectWindow s window_size).map (fun r => r.middle)).isEmpty = true ∨
      ((selectWindow s window_size).map (fun r => r.low)).isEmpty = true) ↔
      selectWindow s window_size = [] := by
    simp [List.isEmpty_iff]
  refine ⟨?_, selectWindow_empty_iff s window_size, ?_⟩
  · unfold get_rate_estimates_from_sql
    by_cases h : selectWindow s window_size = []
    · rw [if_pos (hcond.mpr h)]
      simp [h]
    · rw [if_neg (fun hc => h (hcond.mp hc))]
      simp [h]
  · intro h
    unfold get_rate_estimates_from_sql
    rw [if_neg (fun hc => h (hcond.mp hc))]

/-- Witness for C7 on a store with three rows and window size 2 (an even
window: the returned columns are means of the two central elements). -/
theorem c7_witness :
    (get_rate_estimates_from_sql
        ⟨[(1, ⟨F.fin 4, F.fin 3, F.fin 2⟩), (2, ⟨F.fin 8, F.fin 5, F.fin 4⟩),
          (3, ⟨F.fin 6, F.fin 7, F.fin 3⟩)], 4⟩ 2 =
        .error .NoEstimateAvailable ↔
      selectWindow
        ⟨[(1, ⟨F.fin 4, F.fin 3, F.fin 2⟩), (2, ⟨F.fin 8, F.fin 5, F.fin 4⟩),
          (3, ⟨F.fin 6, F.fin 7, F.fin 3⟩)], 4⟩ 2 = []) ∧
    (selectWindow
        ⟨[(1, ⟨F.fin 4, F.fin 3, F.fin 2⟩), (2, ⟨F.fin 8, F.fin 5, F.fin 4⟩),
          (3, ⟨F.fin 6, F.fin 7, F.fin 3⟩)], 4⟩ 2 = [] ↔
      (([(1, ⟨F.fin 4, F.fin 3, F.fin 2⟩), (2, ⟨F.fin 8, F.fin 5, F.fin 4⟩),
          (3, ⟨F.fin 6, F.fin 7, F.fin 3⟩)] :
            List (ℕ × FeeRateEstimate)) = [] ∨ 2 = 0)) ∧
    (selectWindow
        ⟨[(1, ⟨F.fin 4, F.fin 3, F.fin 2⟩), (2, ⟨F.fin 8, F.fin 5, F.fin 4⟩),
          (3, ⟨F.fin 6, F.fin 7, F.fin 3⟩)], 4⟩ 2 ≠ [] →
      get_rate_estimates_from_sql
        ⟨[(1, ⟨F.fin 4, F.fin 3, F.fin 2⟩), (2, ⟨F.fin 8, F.fin 5, F.fin 4⟩),
          (3, ⟨F.fin 6, F.fin 7, F.fin 3⟩)], 4⟩ 2 =
        .ok { high := medianF (sortColumn ((selectWindow
                ⟨[(1, ⟨F.fin 4, F.fin 3, F.fin 2⟩), (2, ⟨F.fin 8, F.fin 5, F.fin 4⟩),
                  (3, ⟨F.fin 6, F.fin 7, F.fin 3⟩)], 4⟩ 2).map (·.high)))
            , middle := medianF (sortColumn ((selectWindow
                ⟨[(1, ⟨F.fin 4, F.fin 3, F.fin 2⟩), (2, ⟨F.fin 8, F.fin 5, F.fin 4⟩),
                  (3, ⟨F.fin 6, F.fin 7, F.fin 3⟩)], 4⟩ 2).map (·.middle)))
            , low := medianF (sortColumn ((selectWindow
                ⟨[(1, ⟨F.fin 4, F.fin 3, F.fin 2⟩), (2, ⟨F.fin 8, F.fin 5, F.fin 4⟩),
                  (3, ⟨F.fin 6, F.fin 7, F.fin 3⟩)], 4⟩ 2).map (·.low))) }) :=
  c7_read_estimate
    ⟨[(1, ⟨F.fin 4, F.fin 3, F.fin 2⟩), (2, ⟨F.fin 8, F.fin 5, F.fin 4⟩),
      (3, ⟨F.fin 6, F.fin 7, F.fin 3⟩)], 4⟩ 2

/-! ## Claim C8 -/

/-- C8 (as stated, refuted): a storage failure injected at the insert
step of a `record` makes the model *panic* (the source wraps every
storage call in `.expect("SQLite failure")`); the outcome is
`RecordOutcome.panicked`, not an error value returned to the caller.
The prior state is preserved (rollback), which is the half of the claim
that does hold. -/
theorem c8_counterexample :
    update_estimate_withFailures emptyState 3 ⟨F.fin 1, F.fin 1, F.fin 1⟩
        (fun st => decide (st = DbStep.insert)) =
      .panicked "SQLite failure" emptyState ∧
    ∀ e : EstimatorState,
      update_estimate_withFailures emptyState 3 ⟨F.fin 1, F.fin 1, F.fin 1⟩
          (fun st => decide (st = DbStep.insert)) ≠ .committed e := by
  constructor
  · with_unfolding_all decide
  · intro e h
    rw [show update_estimate_withFailures emptyState 3 ⟨F.fin 1, F.fin 1, F.fin 1⟩
        (fun st => decide (st = DbStep.insert)) =
        .panicked "SQLite failure" emptyState from by with_unfolding_all decide] at h
    exact RecordOutcome.noConfusion h

/-- C8 (amended): every injected storage failure during a `record`
aborts by panic — never an error value — and leaves the prior persisted
state exactly intact (the uncommitted transaction rolls back); with no
failure the transaction commits atomically to `update_estimate`'s
result. -/
theorem c8_panic_rollback (s : EstimatorState) (w : ℕ) (m : FeeRateEstimate)
    (fails : DbStep → Bool) :
    ((fails .beginTx = true ∨ fails .insert = true ∨ fails .delete = true ∨
        fails .readAggregate = true ∨ fails .commit = true) →
      update_estimate_withFailures s w m fails = .panicked "SQLite failure" s) ∧
    ((fails .beginTx = false ∧ fails .insert = false ∧ fails .delete = false ∧
        fails .readAggregate = false ∧ fails .commit = false) →
      update_estimate_withFailures s w m fails = .committed (update_estimate s w m)) := by
  unfold update_estimate_withFailures
  constructor
  · intro h
    split_ifs with h1 h2 h3 h4 h5
    · rfl
    · rfl
    · rfl
    · rfl
    · rfl
    · exfalso
      simp only [Bool.not_eq_true] at h1 h2 h3 h4 h5
      rcases h with h | h | h | h | h <;> simp_all
  · intro ⟨h1, h2, h3, h4, h5⟩
    split_ifs <;> simp_all

/-- Witness for C8's amended theorem: a failure at the delete step
panics and preserves the store. -/
theorem c8_witness :
    update_estimate_withFailures emptyState 2 ⟨F.fin 1, F.fin 1, F.fin 1⟩
        (fun st => decide (st = DbStep.delete)) =
      .panicked "SQLite failure" emptyState :=
  (c8_panic_rollback emptyState 2 ⟨F.fin 1, F.fin 1, F.fin 1⟩
    (fun st => decide (st = DbStep.delete))).1
    (Or.inr (Or.inr (Or.inl (by decide))))
